import Mathlib

/-!
# Verification of the BOOP game engine and its MCTS search

Shallow embedding of `boop_game.py`, `boop_mcts.py` and the action
encoding of `boop_alphazero_network.py`.  Pure functions of the Python
source become Lean functions; the mutable game state becomes explicit
state passing; board coordinates are `ℤ` (Python ints); the numeric
float quantities of the search (priors, values, `math.sqrt`,
`np.power`) are modelled over `ℚ`, with `sqrt` and `power` taken as
function parameters so every theorem quantifies over the numeric model.
Fallible code paths that Python signals with a boolean return a
`Bool × state` pair; paths that raise return `Except String _`.
-/

namespace Boop

/-- `PieceType` enum of `boop_game.py`. -/
inductive PieceType where
  | kitten
  | cat
deriving DecidableEq

/-- `Color` enum of `boop_game.py`. -/
inductive Color where
  | orange
  | gray
deriving DecidableEq

/-- `Piece` dataclass: a rank (`type` in Python) and an owner color. -/
structure Piece where
  ptype : PieceType
  color : Color
deriving DecidableEq

/-- `Piece.can_boop`: kittens cannot boop cats; every other combination can. -/
def Piece.can_boop (p other : Piece) : Bool :=
  !(p.ptype == PieceType.kitten && other.ptype == PieceType.cat)

/-- Board positions, `(row, col)` as Python ints. -/
abbrev Pos := ℤ × ℤ

/-- The 6×6 board.  `Board.SIZE = 6`.  The Python grid is a 6×6 list of
lists indexed only at in-bounds positions by every reachable call; we
model it as a total function on `ℤ × ℤ` whose out-of-bounds cells are
never written nor counted. -/
def Board := Pos → Option Piece

/-- The empty grid built by `Board.__init__`. -/
def Board.emptyBoard : Board := fun _ => none

/-- `Board.is_valid_position`. -/
def is_valid_position (p : Pos) : Bool :=
  decide (0 ≤ p.1) && decide (p.1 < 6) && decide (0 ≤ p.2) && decide (p.2 < 6)

/-- `Board.is_empty`: in bounds and no piece. -/
def Board.is_empty (b : Board) (p : Pos) : Bool :=
  is_valid_position p && (b p).isNone

/-- `Board.get_piece`: the piece at a position, `None` when out of bounds. -/
def Board.get_piece (b : Board) (p : Pos) : Option Piece :=
  if is_valid_position p then b p else none

/-- `Board.place_piece`.  The Python method raises on a non-empty target;
every call site first checks `is_empty`, so the raising branch is dead
code and the embedding is the bare write used on the live path. -/
def Board.place_piece (b : Board) (p : Pos) (pc : Piece) : Board :=
  Function.update b p (some pc)

/-- `Board.remove_piece`: returns the removed piece and the new grid.
The Python method indexes the raw grid; all reachable calls are
in bounds. -/
def Board.remove_piece (b : Board) (p : Pos) : Option Piece × Board :=
  (b p, Function.update b p none)

/-- `Board.move_piece`: remove from the source, and place at the target
only if a piece was present and the target is empty.  (Python also
returns the piece; the only caller discards it.) -/
def Board.move_piece (b : Board) (f t : Pos) : Board :=
  match (b.remove_piece f).1 with
  | some pc =>
    if (b.remove_piece f).2.is_empty t then (b.remove_piece f).2.place_piece t pc
    else (b.remove_piece f).2
  | none => (b.remove_piece f).2

/-- The 8 direction offsets of `Board.get_all_adjacent`, in source order. -/
def directionList : List Pos :=
  [(-1,-1), (-1,0), (-1,1), (0,-1), (0,1), (1,-1), (1,0), (1,1)]

/-- `Board.get_all_adjacent`: the up-to-8 in-bounds neighbours, in the
fixed source order. -/
def get_all_adjacent (p : Pos) : List Pos :=
  (directionList.map (fun d => (p.1 + d.1, p.2 + d.2))).filter is_valid_position

/-- The 36 cells scanned by the counting loops (`for row in range(6): for
col in range(6)`), in row-major order. -/
def boardCellList : List Pos :=
  ((List.range 6).map (fun r => (List.range 6).map (fun c => (((r : ℤ), (c : ℤ)) : Pos)))).flatten

/-- `Board.count_pieces_by_color`. -/
def Board.count_pieces_by_color (b : Board) (c : Color) : ℕ :=
  (boardCellList.map b).countP (fun op =>
    match op with
    | some pc => pc.color == c
    | none => false)

/-- `Player` dataclass: a color, a pool of playable pieces and a reserve. -/
structure Player where
  color : Color
  pool : List Piece
  reserve : List Piece
deriving DecidableEq

/-- `Player.__init__`: 8 kittens in the pool, 8 cats in the reserve. -/
def Player.init (c : Color) : Player :=
  { color := c
    pool := List.replicate 8 ⟨PieceType.kitten, c⟩
    reserve := List.replicate 8 ⟨PieceType.cat, c⟩ }

/-- `Player.has_pieces_to_play`. -/
def Player.has_pieces_to_play (pl : Player) : Bool :=
  decide (0 < pl.pool.length)

/-- Pop the first piece of the given rank from a list, keeping the order
of the rest — the loop of `Player.get_piece_from_pool`. -/
def popFirst (l : List Piece) (t : PieceType) : Option Piece × List Piece :=
  match l with
  | [] => (none, [])
  | p :: rest =>
    if p.ptype == t then (some p, rest)
    else
      let r := popFirst rest t
      (r.1, p :: r.2)

/-- `Player.get_piece_from_pool`. -/
def Player.get_piece_from_pool (pl : Player) (t : PieceType) : Option Piece × Player :=
  ((popFirst pl.pool t).1, { pl with pool := (popFirst pl.pool t).2 })

/-- `Player.return_to_pool`: append to the pool. -/
def Player.return_to_pool (pl : Player) (pc : Piece) : Player :=
  { pl with pool := pl.pool ++ [pc] }

/-- One iteration of the loop in `Player.graduate_kittens`:
`cat = self.reserve.pop(); self.pool.append(cat)`.  The pop-from-empty
branch is dead code (guarded by the length test). -/
def gradStep (pl : Player) : Player :=
  match pl.reserve.getLast? with
  | some cat => { pl with reserve := pl.reserve.dropLast, pool := pl.pool ++ [cat] }
  | none => pl

/-- `Player.graduate_kittens(count)`: if the reserve holds at least
`count` pieces, move `count` pieces from the end of the reserve to the
pool; otherwise do nothing. -/
def Player.graduate_kittens (pl : Player) (count : ℕ) : Player :=
  if count ≤ pl.reserve.length then gradStep^[count] pl else pl

/-- `GameState`: board, the two players, current player index, optional
winner and the ply counter. -/
structure GameState where
  board : Board
  players : Player × Player
  currentPlayerIdx : Fin 2
  winner : Option Color
  moveCount : ℕ

/-- `GameState.__init__`. -/
def GameState.init : GameState :=
  { board := Board.emptyBoard
    players := (Player.init Color.orange, Player.init Color.gray)
    currentPlayerIdx := 0
    winner := none
    moveCount := 0 }

/-- `GameState.get_current_player`. -/
def GameState.get_current_player (s : GameState) : Player :=
  if s.currentPlayerIdx = 0 then s.players.1 else s.players.2

/-- Write back the (mutated-in-Python) current player. -/
def GameState.set_current_player (s : GameState) (pl : Player) : GameState :=
  if s.currentPlayerIdx = 0 then { s with players := (pl, s.players.2) }
  else { s with players := (s.players.1, pl) }

/-- `GameState.get_opponent`. -/
def GameState.get_opponent (s : GameState) : Player :=
  if s.currentPlayerIdx = 0 then s.players.2 else s.players.1

/-- `GameState.switch_player`: `current_player_idx = 1 - current_player_idx`. -/
def GameState.switch_player (s : GameState) : GameState :=
  { s with currentPlayerIdx := 1 - s.currentPlayerIdx }

/-- `GameState.get_empty_positions`, in row-major order. -/
def GameState.get_empty_positions (s : GameState) : List Pos :=
  boardCellList.filter (fun p => s.board.is_empty p)

/-! ## BoopEngine — push ("boop") resolution -/

/-- `BoopEngine.calculate_push_direction`: per-axis sign of the vector
from the placed position through the neighbour. -/
def calculate_push_direction (fromPos toPos : Pos) : Pos :=
  let dr := toPos.1 - fromPos.1
  let dc := toPos.2 - fromPos.2
  (if dr = 0 then 0 else if 0 < dr then 1 else -1,
   if dc = 0 then 0 else if 0 < dc then 1 else -1)

/-- `BoopEngine.is_blocked_by_line_of_two`: blocked when the cell one
step behind in the push direction is on the board and occupied. -/
def is_blocked_by_line_of_two (b : Board) (pos pushDir : Pos) : Bool :=
  if is_valid_position (pos.1 + pushDir.1, pos.2 + pushDir.2) then
    (b.get_piece (pos.1 + pushDir.1, pos.2 + pushDir.2)).isSome
  else false

/-- One iteration of the neighbour loop of `BoopEngine.resolve_boop`,
threading the board and the list of knocked-off pieces. -/
def boopStep (placedPiece : Piece) (placedPos : Pos) (acc : Board × List Piece)
    (adj : Pos) : Board × List Piece :=
  match acc.1.get_piece adj with
  | none => acc
  | some target =>
    if !placedPiece.can_boop target then acc
    else if is_blocked_by_line_of_two acc.1 adj (calculate_push_direction placedPos adj) then
      acc
    else if !is_valid_position (adj.1 + (calculate_push_direction placedPos adj).1,
        adj.2 + (calculate_push_direction placedPos adj).2) then
      ((acc.1.remove_piece adj).2, acc.2 ++ [target])
    else if acc.1.is_empty (adj.1 + (calculate_push_direction placedPos adj).1,
        adj.2 + (calculate_push_direction placedPos adj).2) then
      (acc.1.move_piece adj (adj.1 + (calculate_push_direction placedPos adj).1,
        adj.2 + (calculate_push_direction placedPos adj).2), acc.2)
    else acc

/-- `BoopEngine.resolve_boop`: run the push pass over the neighbours of
the placed position in the fixed source order; returns the new board
and the pieces pushed off the board, in knock-off order. -/
def resolve_boop (b : Board) (placedPos : Pos) : Board × List Piece :=
  match b.get_piece placedPos with
  | none => (b, [])
  | some placed => (get_all_adjacent placedPos).foldl (boopStep placed placedPos) (b, [])

/-! ## GraduationEngine -/

/-- The candidate 3-cell runs scanned by
`GraduationEngine.find_lines_of_three`, in source order: horizontal,
vertical, down-right diagonal, down-left diagonal. -/
def lineCandidates : List (List Pos) :=
  (((List.range 6).map (fun r => (List.range 4).map (fun c =>
      [(((r : ℤ)), (c : ℤ)), ((r : ℤ), (c : ℤ) + 1), ((r : ℤ), (c : ℤ) + 2)]))).flatten)
  ++ (((List.range 4).map (fun r => (List.range 6).map (fun c =>
      [(((r : ℤ)), (c : ℤ)), ((r : ℤ) + 1, (c : ℤ)), ((r : ℤ) + 2, (c : ℤ))]))).flatten)
  ++ (((List.range 4).map (fun r => (List.range 4).map (fun c =>
      [(((r : ℤ)), (c : ℤ)), ((r : ℤ) + 1, (c : ℤ) + 1), ((r : ℤ) + 2, (c : ℤ) + 2)]))).flatten)
  ++ (((List.range 4).map (fun r => (List.range 4).map (fun c =>
      [(((r : ℤ)), (c : ℤ) + 2), ((r : ℤ) + 1, (c : ℤ) + 1), ((r : ℤ) + 2, (c : ℤ))]))).flatten)

/-- `GraduationEngine._is_valid_line`: every cell of the run holds a
piece of the given color. -/
def is_valid_line (b : Board) (line : List Pos) (c : Color) : Bool :=
  line.all (fun p =>
    match b.get_piece p with
    | some pc => pc.color == c
    | none => false)

/-- `GraduationEngine.find_lines_of_three`. -/
def find_lines_of_three (b : Board) (c : Color) : List (List Pos) :=
  lineCandidates.filter (fun line => is_valid_line b line c)

/-- `GraduationEngine._line_has_kitten`. -/
def line_has_kitten (b : Board) (line : List Pos) : Bool :=
  line.any (fun p =>
    match b.get_piece p with
    | some pc => pc.ptype == PieceType.kitten
    | none => false)

/-- One cell of the removal loop of `GraduationEngine.graduate_line`:
remove the piece; a cat returns to the player's pool, a kitten leaves
the game permanently. -/
def gradRemoveStep (acc : Player × Board) (p : Pos) : Player × Board :=
  match (acc.2.remove_piece p).1 with
  | some pc =>
    if pc.ptype == PieceType.cat then (acc.1.return_to_pool pc, (acc.2.remove_piece p).2)
    else (acc.1, (acc.2.remove_piece p).2)
  | none => (acc.1, (acc.2.remove_piece p).2)

/-- `GraduationEngine.graduate_line`: remove the run from the board
(cats back to the current player's pool, kittens out of the game), then
`graduate_kittens(3)`. -/
def graduate_line (s : GameState) (line : List Pos) : GameState :=
  { s.set_current_player
      ((line.foldl gradRemoveStep (s.get_current_player, s.board)).1.graduate_kittens 3)
    with board := (line.foldl gradRemoveStep (s.get_current_player, s.board)).2 }

/-! ## WinChecker -/

/-- A run consisting entirely of cats (`all(p and p.type == CAT ...)`). -/
def lineAllCats (b : Board) (line : List Pos) : Bool :=
  line.all (fun p =>
    match b.get_piece p with
    | some pc => pc.ptype == PieceType.cat
    | none => false)

/-- Number of cats of a color on the board — the counting loop of
`WinChecker.check_win`. -/
def boardCatCount (b : Board) (c : Color) : ℕ :=
  (boardCellList.map b.get_piece).countP (fun op =>
    match op with
    | some pc => pc.color == c && pc.ptype == PieceType.cat
    | none => false)

/-- `WinChecker.check_win`: the current player wins with an all-cat run
of their color, or with exactly 8 of their cats on the board. -/
def check_win (s : GameState) : Option Color :=
  let player := s.get_current_player
  if (find_lines_of_three s.board player.color).any (fun line => lineAllCats s.board line) then
    some player.color
  else if boardCatCount s.board player.color = 8 then some player.color
  else none

/-! ## BoopGame — one ply -/

/-- The validation/placement prefix of `BoopGame.play_move`: fail when
the target cell is occupied or out of bounds, fail when the pool holds
no piece of the requested rank; otherwise pop the piece, place it and
bump the ply counter. -/
def afterPlace (s : GameState) (pos : Pos) (t : PieceType) : Option GameState :=
  if !s.board.is_empty pos then none
  else
    match (s.get_current_player.get_piece_from_pool t).1 with
    | none => none
    | some piece =>
      let s1 := s.set_current_player (s.get_current_player.get_piece_from_pool t).2
      some { s1 with board := s1.board.place_piece pos piece, moveCount := s1.moveCount + 1 }

/-- Return each knocked-off piece to the pool of every player whose
color matches — the nested loop of `BoopGame.play_move`. -/
def returnBoopedStep (pls : Player × Player) (pc : Piece) : Player × Player :=
  ((if pls.1.color == pc.color then pls.1.return_to_pool pc else pls.1),
   (if pls.2.color == pc.color then pls.2.return_to_pool pc else pls.2))

/-- Push resolution plus the booped-piece return loop of
`BoopGame.play_move`. -/
def afterBoop (s : GameState) (pos : Pos) : GameState :=
  { s with board := (resolve_boop s.board pos).1,
           players := (resolve_boop s.board pos).2.foldl returnBoopedStep s.players }

/-- The run that graduates this ply, if any: the first found line of the
color that contains a kitten. -/
def gradLineChoice (s : GameState) (c : Color) : Option (List Pos) :=
  (find_lines_of_three s.board c).find? (fun line => line_has_kitten s.board line)

/-- The graduation step of `BoopGame.play_move` (at most one run).  The
"all 8 pieces on board, no lines" alternative graduation in the source
is an explicit `pass`. -/
def afterGrad (s : GameState) (c : Color) : GameState :=
  match gradLineChoice s c with
  | some line => graduate_line s line
  | none => s

/-- The state of `BoopGame.play_move` just before win detection (the
input state when validation failed). -/
def preWinState (s : GameState) (pos : Pos) (t : PieceType) : GameState :=
  match afterPlace s pos t with
  | some s1 => afterGrad (afterBoop s1 pos) s.get_current_player.color
  | none => s

/-- `BoopGame.play_move`: validate, place, resolve pushes, return booped
pieces, graduate at most one run, check for a win (recording it and not
switching the turn), otherwise switch the player.  Returns the Python
boolean and the state. -/
def play_move (s : GameState) (row col : ℤ) (t : PieceType) : Bool × GameState :=
  match afterPlace s (row, col) t with
  | none => (false, s)
  | some s1 =>
    match check_win (afterGrad (afterBoop s1 (row, col)) s.get_current_player.color) with
    | some w =>
      (true, { afterGrad (afterBoop s1 (row, col)) s.get_current_player.color
                 with winner := some w })
    | none =>
      (true, (afterGrad (afterBoop s1 (row, col)) s.get_current_player.color).switch_player)

/-- `BoopGame.get_valid_moves` (identical logic to
`MCTS._get_valid_actions` and to the manual branch of
`BoopNetWrapper.get_valid_actions_mask`): for each empty cell in
row-major order, a kitten move if the pool has a kitten then a cat move
if the pool has a cat. -/
def get_valid_moves (s : GameState) : List (ℤ × ℤ × PieceType) :=
  let player := s.get_current_player
  let hasKitten := player.pool.any (fun p => p.ptype == PieceType.kitten)
  let hasCat := player.pool.any (fun p => p.ptype == PieceType.cat)
  (s.get_empty_positions.map (fun p =>
    (if hasKitten then [(p.1, p.2, PieceType.kitten)] else [])
      ++ (if hasCat then [(p.1, p.2, PieceType.cat)] else []))).flatten

/-- `BoopGame.is_game_over`: a winner is recorded, or the current player
has no pieces to play, or the board is full. -/
def is_game_over (s : GameState) : Bool :=
  if s.winner.isSome then true
  else if !s.get_current_player.has_pieces_to_play then true
  else decide (s.get_empty_positions.length = 0)

/-- `BoopGame.get_winner`. -/
def get_winner (s : GameState) : Option Color :=
  s.winner

/-! ## Action encoding (`boop_alphazero_network.py`) -/

/-- A search action `(row, col, piece_type)`. -/
abbrev Action := ℤ × ℤ × PieceType

/-- `BoopNetWrapper.encode_action`: `row*6+col`, plus 36 for a cat. -/
def encode_action (row col : ℤ) (t : PieceType) : ℤ :=
  row * 6 + col + (if t == PieceType.cat then 36 else 0)

/-- `BoopNetWrapper.decode_action`: indices 0–35 are kitten placements,
36–71 cat placements, 72–107 the reserved/pass slots (`None`). -/
def decode_action (idx : ℕ) : Option Action :=
  if idx < 36 then some (((idx / 6 : ℕ) : ℤ), ((idx % 6 : ℕ) : ℤ), PieceType.kitten)
  else if idx < 72 then
    some ((((idx - 36) / 6 : ℕ) : ℤ), (((idx - 36) % 6 : ℕ) : ℤ), PieceType.cat)
  else none

/-- The all-zero length-108 probability vector (`np.zeros(108)`). -/
def zeros108 : List ℚ := List.replicate 108 0

/-- `BoopNetWrapper.get_valid_actions_mask`: `GameState` has no
`get_valid_moves` attribute, so the manual branch always runs; it
traverses the empty cells exactly as `get_valid_moves` does.  If the
mask is all zero the reserved pass slot 72 is set. -/
def get_valid_actions_mask (s : GameState) : List ℚ :=
  let mask := (get_valid_moves s).foldl
    (fun acc a => acc.set (encode_action a.1 a.2.1 a.2.2).toNat 1) zeros108
  if mask.sum = 0 then mask.set 72 1 else mask

/-! ## MCTS (`boop_mcts.py`)

The search tree: Python's `MCTSNode` has a parent back-reference and a
dict `action -> child`; insertion order of the dict is the expansion
order, so children are a list, each child carrying the action that
leads to it.  Backup along the select path becomes the return path of
the recursion.  The evaluator (`neural_net.predict`), `math.sqrt` and
`np.power` are function parameters. -/

inductive Tree where
  | node : Option GameState → Option Action → ℚ → ℕ → ℚ → Bool → List Tree → Tree

/-- The lazily materialised state (`MCTSNode.game_state`). -/
def Tree.stateOpt : Tree → Option GameState
  | .node st _ _ _ _ _ _ => st

/-- The action that led to this node (`MCTSNode.action`). -/
def Tree.action : Tree → Option Action
  | .node _ a _ _ _ _ _ => a

/-- `MCTSNode.prior`. -/
def Tree.prior : Tree → ℚ
  | .node _ _ pr _ _ _ _ => pr

/-- `MCTSNode.visit_count`. -/
def Tree.visit : Tree → ℕ
  | .node _ _ _ v _ _ _ => v

/-- `MCTSNode.value_sum`. -/
def Tree.valueSum : Tree → ℚ
  | .node _ _ _ _ vs _ _ => vs

/-- `MCTSNode.is_expanded`. -/
def Tree.expanded : Tree → Bool
  | .node _ _ _ _ _ e _ => e

/-- `MCTSNode.children`, in insertion order. -/
def Tree.children : Tree → List Tree
  | .node _ _ _ _ _ _ c => c

/-- `MCTSNode.value`: average value, 0 before any visit. -/
def Tree.nodeValue (t : Tree) : ℚ :=
  if t.visit = 0 then 0 else t.valueSum / (t.visit : ℚ)

/-- A fresh node (`MCTSNode.__init__`). -/
def Tree.fresh (st : Option GameState) (a : Option Action) (pr : ℚ) : Tree :=
  .node st a pr 0 0 false []

/-- Rebuild a node with visit/value/state updated by one backup step
(`visit_count += 1; value_sum += value`, and the lazily stored state). -/
def Tree.bump (t : Tree) (s : GameState) (v : ℚ) : Tree :=
  match t with
  | .node _ a pr vis vs e c => .node (some s) a pr (vis + 1) (vs + v) e c

/-- Rebuild a node with one child replaced, on top of a backup step. -/
def Tree.bumpWith (t : Tree) (s : GameState) (v : ℚ) (i : ℕ) (c' : Tree) : Tree :=
  match t with
  | .node _ a pr vis vs e c => .node (some s) a pr (vis + 1) (vs + v) e (c.set i c')

/-- The UCB score of `MCTSNode.select_child`:
`-child.value() + c_puct * child.prior * sqrt(parent.visit_count) / (1 + child.visit_count)`. -/
def ucbScore (sqrtQ : ℕ → ℚ) (cpuct : ℚ) (parentVisit : ℕ) (c : Tree) : ℚ :=
  -c.nodeValue + cpuct * c.prior * sqrtQ parentVisit / (1 + (c.visit : ℚ))

/-- The strict-improvement scan of `select_child`: index and score of
the best child so far.  Python starts from `-inf`, so the first child
always becomes the initial best (its finite score beats `-inf`). -/
def bestAux (f : Tree → ℚ) : List Tree → ℕ → ℕ → ℚ → ℕ
  | [], _, bi, _ => bi
  | c :: rest, i, bi, bs =>
    if bs < f c then bestAux f rest (i + 1) i (f c) else bestAux f rest (i + 1) bi bs

/-- `MCTSNode.select_child` as an index into the children list; `none`
on an empty children list (where Python would fail). -/
def bestChildIdx (f : Tree → ℚ) (l : List Tree) : Option ℕ :=
  match l with
  | [] => none
  | c :: rest => some (bestAux f rest 1 0 (f c))

/-- The prior lookup of `MCTSNode.expand`:
`action_idx = row*6+col (+36 for a cat); policy[action_idx] if in range else 0.0`.
Rows and columns of valid actions are nonnegative, so `toNat` is exact. -/
def priorOf (policy : List ℚ) (a : Action) : ℚ :=
  policy.getD (encode_action a.1 a.2.1 a.2.2).toNat 0

/-- `MCTSNode.expand`: mark expanded and create one fresh child per
valid action with its prior from the policy. -/
def Tree.expandNode (t : Tree) (policy : List ℚ) (acts : List Action) : Tree :=
  match t with
  | .node st a pr vis vs _ _ =>
    .node st a pr vis vs true (acts.map (fun act => Tree.fresh none (some act) (priorOf policy act)))

/-- `MCTS._is_terminal`: a winner, an empty pool for the player to move,
or a full board. -/
def isTerminal (s : GameState) : Bool :=
  if s.winner.isSome then true
  else if !s.get_current_player.has_pieces_to_play then true
  else decide (s.get_empty_positions.length = 0)

/-- `MCTS._get_valid_actions` — same logic as `BoopGame.get_valid_moves`. -/
def getValidActions (s : GameState) : List Action :=
  get_valid_moves s

/-- The terminal leaf value of `MCTS.search`: 0 without a winner, else
±1 from the perspective of the player to move at the leaf. -/
def terminalValue (s : GameState) : ℚ :=
  match s.winner with
  | none => 0
  | some w => if w == s.get_current_player.color then 1 else -1

/-- The state a child is lazily given in `MCTS.search`: play the child's
action on (a copy of) the parent state. -/
def childState (parentState : GameState) (a : Option Action) : GameState :=
  match a with
  | some act => (play_move parentState act.1 act.2.1 act.2.2).2
  | none => parentState

/-- One simulation of `MCTS.search` (select to a leaf or terminal node,
expand/evaluate, back the value up).  `s` is the resolved state of `t`.
Returns the updated subtree and the value that was added at its root
(the caller adds the negation, exactly as the backup loop flips the
value walking to the parent).  The two `none`/out-of-range fallbacks
mirror situations where Python would raise; they are unreachable for
trees produced by the search itself. -/
def simulate (sqrtQ : ℕ → ℚ) (predict : GameState → List ℚ × ℚ) (cpuct : ℚ)
    (s : GameState) : Tree → Tree × ℚ
  | t@(.node _ _ _ _ _ e children) =>
    if e = true ∧ isTerminal s = false then
      match bestChildIdx (ucbScore sqrtQ cpuct t.visit) children with
      | some i =>
        if h : i < children.length then
          let c := children.get ⟨i, h⟩
          let cs := match c.stateOpt with
            | some s' => s'
            | none => childState s c.action
          let r := simulate sqrtQ predict cpuct cs c
          let v := -r.2
          (t.bumpWith s v i r.1, v)
        else (t.bump s 0, 0)
      | none => (t.bump s 0, 0)
    else if isTerminal s = true then
      let v := terminalValue s
      (t.bump s v, v)
    else
      let pv := predict s
      let acts := getValidActions s
      if acts.isEmpty then (t.bump s 0, 0)
      else
        let t' := t.expandNode pv.1 acts
        (t'.bump s pv.2, pv.2)
  termination_by t => sizeOf t
  decreasing_by
    have hmem : children.get ⟨i, h⟩ ∈ children := List.get_mem children i h
    have h1 : sizeOf (children.get ⟨i, h⟩) < sizeOf children :=
      List.sizeOf_lt_of_mem hmem
    simp only [Tree.node.sizeOf_spec]
    omega

/-- The fresh root of `MCTS.search` (a deep copy of the given state). -/
def freshRoot (s : GameState) : Tree :=
  Tree.fresh (some s) none 0

/-- The simulation loop of `MCTS.search`: `n` simulations from the root
whose resolved state is `s`. -/
def searchLoop (sqrtQ : ℕ → ℚ) (predict : GameState → List ℚ × ℚ) (cpuct : ℚ)
    (s : GameState) : ℕ → Tree → Tree
  | 0, t => t
  | n + 1, t => (simulate sqrtQ predict cpuct s (searchLoop sqrtQ predict cpuct s n t)).1

/-- Sum of the visit counts over a node's direct children
(`sum(child.visit_count for child in root.children.values())`). -/
def childVisitSum (t : Tree) : ℕ :=
  (t.children.map Tree.visit).sum

/-- The per-child assignment loop of `MCTS._get_action_probs`:
temperature 0 writes `1/#max` at each most-visited child's encoded
index, otherwise the raw visit count is written. -/
def assignProbs (t : Tree) (temp : ℚ) : List ℚ :=
  t.children.foldl
    (fun acc c =>
      match c.action with
      | some a =>
        let idx := (encode_action a.1 a.2.1 a.2.2).toNat
        if temp = 0 then
          let visitCounts := t.children.map Tree.visit
          let maxV := visitCounts.foldr max 0
          if c.visit = maxV then acc.set idx (1 / (visitCounts.count maxV : ℚ)) else acc
        else acc.set idx (c.visit : ℚ)
      | none => acc)
    zeros108

/-- `MCTS._get_action_probs`.  With no visits at all, a uniform
distribution over the valid-action mask of the root state (Python reads
`root.game_state`, always set for a search root; the `none` branch is
unreachable).  Otherwise the visit counts (or the temperature-0
distribution), with `np.power(·, 1/temperature)` —  modelled by the
parameter `powQ` — and renormalisation when the temperature is neither
0 nor 1. -/
def get_action_probs (powQ : ℚ → ℚ → ℚ) (t : Tree) (temp : ℚ) : List ℚ :=
  if childVisitSum t = 0 then
    match t.stateOpt with
    | some st =>
      let mask := get_valid_actions_mask st
      if 0 < mask.sum then mask.map (fun q => q / mask.sum) else zeros108
    | none => zeros108
  else
    let probs := assignProbs t temp
    if temp ≠ 0 ∧ 0 < probs.sum then
      let probs2 := if temp ≠ 1 then probs.map (fun q => powQ q (1 / temp)) else probs
      probs2.map (fun q => q / probs2.sum)
    else probs

/-- `MCTS.search`: build a fresh root, run the simulation budget, and
return the action-probability vector and the root's average value.
`temp?` is the optional `temperature` argument; `selfTemp` the value
from the constructor used when it is `None`. -/
def mctsSearch (sqrtQ : ℕ → ℚ) (predict : GameState → List ℚ × ℚ) (cpuct : ℚ)
    (numSims : ℕ) (selfTemp : ℚ) (powQ : ℚ → ℚ → ℚ)
    (s : GameState) (temp? : Option ℚ) : List ℚ × ℚ :=
  let temp := temp?.getD selfTemp
  let final := searchLoop sqrtQ predict cpuct s numSims (freshRoot s)
  (get_action_probs powQ final temp, final.nodeValue)

/-- First-maximum scan for `np.argmax`. -/
def argmaxAux : List ℚ → ℕ → ℕ → ℚ → ℕ
  | [], _, bi, _ => bi
  | q :: rest, i, bi, bv =>
    if bv < q then argmaxAux rest (i + 1) i q else argmaxAux rest (i + 1) bi bv

/-- `np.argmax`: index of the first maximal entry (0 on an empty list). -/
def argmaxIdx (l : List ℚ) : ℕ :=
  match l with
  | [] => 0
  | q :: rest => argmaxAux rest 1 0 q

/-- The index-selection step of `MCTS.get_best_action`: `np.argmax` when
the `temperature` argument equals 0 (note Python's `None == 0` is
false), otherwise a draw by `np.random.choice(len(probs), p=probs)` —
modelled by the arbitrary function `sample`, with the `ValueError`
numpy raises when the probabilities do not sum to 1. -/
def chosenIdx (sample : List ℚ → ℕ) (probs : List ℚ) (temp? : Option ℚ) : Except String ℕ :=
  if temp? = some 0 then Except.ok (argmaxIdx probs)
  else if probs.sum = 1 then Except.ok (sample probs)
  else Except.error "probabilities do not sum to 1"

/-- `MCTS.get_best_action`: search, select an index, decode it; a `None`
decode falls back to the first valid action, and raises
`ValueError("No valid actions available")` when there is none. -/
def get_best_action (sqrtQ : ℕ → ℚ) (predict : GameState → List ℚ × ℚ) (cpuct : ℚ)
    (numSims : ℕ) (selfTemp : ℚ) (powQ : ℚ → ℚ → ℚ) (sample : List ℚ → ℕ)
    (s : GameState) (temp? : Option ℚ) : Except String Action :=
  let probs := (mctsSearch sqrtQ predict cpuct numSims selfTemp powQ s temp?).1
  match chosenIdx sample probs temp? with
  | Except.error e => Except.error e
  | Except.ok idx =>
    match decode_action idx with
    | some a => Except.ok a
    | none =>
      match getValidActions s with
      | a :: _ => Except.ok a
      | [] => Except.error "No valid actions available"

/-! ## Derived quantities used by the verification -/

/-- Pieces of a color and rank on the board (cells scanned in the same
row-major order as the Python counting loops). -/
def countBoardPiece (b : Board) (c : Color) (t : PieceType) : ℕ :=
  (boardCellList.map b.get_piece).countP (fun op => op == some ⟨t, c⟩)

/-- Pieces of a color and rank in both players' pools and reserves. -/
def pairZones (pls : Player × Player) (c : Color) (t : PieceType) : ℕ :=
  (pls.1.pool ++ pls.1.reserve ++ pls.2.pool ++ pls.2.reserve).countP
    (fun p => p == (⟨t, c⟩ : Piece))

/-- Pieces of a color and rank across every zone: both pools, both
reserves and the board. -/
def countAll (s : GameState) (c : Color) (t : PieceType) : ℕ :=
  pairZones s.players c t + countBoardPiece s.board c t

/-- Kittens of a color in a run, read on the given board. -/
def kittensInLine (b : Board) (line : List Pos) (c : Color) : ℕ :=
  line.countP (fun p => b.get_piece p == some (⟨PieceType.kitten, c⟩ : Piece))

/-- The number of kittens of color `c` permanently removed by the (at
most one) graduation of the ply `play_move s row col t`, computed from
the same pipeline stages as `play_move` itself. -/
def gradKittensOf (s : GameState) (row col : ℤ) (t : PieceType) (c : Color) : ℕ :=
  match afterPlace s (row, col) t with
  | none => 0
  | some s1 =>
    match gradLineChoice (afterBoop s1 (row, col)) s.get_current_player.color with
    | none => 0
    | some line => kittensInLine (afterBoop s1 (row, col)).board line c

/-- States reachable from the initial state by successful `play_move`
calls, together with the running count of kittens permanently removed
by graduation for each color. -/
inductive ReachableG : GameState → (Color → ℕ) → Prop where
  | init : ReachableG GameState.init (fun _ => 0)
  | step (s : GameState) (rem : Color → ℕ) (row col : ℤ) (t : PieceType) :
      ReachableG s rem → (play_move s row col t).1 = true →
      ReachableG (play_move s row col t).2
        (fun c => rem c + gradKittensOf s row col t c)

/-- The outcome the push pass gives a neighbour of the placed piece,
decided on the board as it stood at placement time: skipped (empty,
unpushable rank, braced, or a blocked destination), moved one cell
further away, or knocked off the board.  The conditions are those of
`BoopEngine.resolve_boop` in source order. -/
inductive BoopOutcome where
  | skipB
  | moveB
  | knockB
deriving DecidableEq

/-- Classify one neighbour of the placed position (see `BoopOutcome`). -/
def stepOutcome (placed : Piece) (b : Board) (placedPos n : Pos) : BoopOutcome :=
  match b.get_piece n with
  | none => BoopOutcome.skipB
  | some target =>
    if !placed.can_boop target then BoopOutcome.skipB
    else if is_blocked_by_line_of_two b n (calculate_push_direction placedPos n) then
      BoopOutcome.skipB
    else if !is_valid_position (n.1 + (calculate_push_direction placedPos n).1,
        n.2 + (calculate_push_direction placedPos n).2) then BoopOutcome.knockB
    else if b.is_empty (n.1 + (calculate_push_direction placedPos n).1,
        n.2 + (calculate_push_direction placedPos n).2) then BoopOutcome.moveB
    else BoopOutcome.skipB

/-- The pieces the push pass knocks off, read from the placement-time
board in neighbour order. -/
def knockedPieces (placed : Piece) (b : Board) (placedPos : Pos) : List Piece :=
  (get_all_adjacent placedPos).filterMap (fun n =>
    if stepOutcome placed b placedPos n == BoopOutcome.knockB then b.get_piece n else none)

/-- The push destination of a neighbour: one step beyond it along the
placement-to-neighbour direction (also the cell the blocking check
inspects). -/
def destOf (pos n : Pos) : Pos :=
  (n.1 + (calculate_push_direction pos n).1, n.2 + (calculate_push_direction pos n).2)

/-- The player of a given color in a player pair. -/
def pickPlayer (pls : Player × Player) (c : Color) : Player :=
  if pls.1.color == c then pls.1 else pls.2

/-- Pieces of a rank in a player's pool. -/
def poolRankCount (pl : Player) (t : PieceType) : ℕ :=
  pl.pool.countP (fun p => p.ptype == t)

/-! ## Concrete states used as witnesses and counterexamples -/

/-- Modelled from the spec: the win condition as the spec words it —
"all 8 of the player's pieces are simultaneously on the board and all
of them are of rank Cat": the player has exactly 8 pieces on the board
and every one of them is a Cat. -/
def specEightOnBoardAllCats (s : GameState) (c : Color) : Bool :=
  s.board.count_pieces_by_color c == 8
    && boardCellList.all (fun p =>
      match s.board.get_piece p with
      | some pc => !(pc.color == c) || pc.ptype == PieceType.cat
      | none => true)

/-- 8 orange cats placed with no 3-in-a-row of the color, plus one
orange kitten: `check_win` reports a win on the cat count alone. -/
def cexBoardC2 : Board :=
  ((((((((Board.emptyBoard.place_piece (0, 0) ⟨PieceType.cat, Color.orange⟩).place_piece
    (0, 1) ⟨PieceType.cat, Color.orange⟩).place_piece
    (0, 3) ⟨PieceType.cat, Color.orange⟩).place_piece
    (0, 4) ⟨PieceType.cat, Color.orange⟩).place_piece
    (1, 0) ⟨PieceType.cat, Color.orange⟩).place_piece
    (1, 1) ⟨PieceType.cat, Color.orange⟩).place_piece
    (1, 3) ⟨PieceType.cat, Color.orange⟩).place_piece
    (1, 4) ⟨PieceType.cat, Color.orange⟩).place_piece
    (3, 0) ⟨PieceType.kitten, Color.orange⟩

/-- Game state around `cexBoardC2`, orange to act. -/
def cexStateC2 : GameState :=
  { board := cexBoardC2
    players := (Player.init Color.orange, Player.init Color.gray)
    currentPlayerIdx := 0
    winner := none
    moveCount := 0 }

/-- Two orange cats at (0,0) and (0,1), orange holding a cat: placing a
third cat at (0,2) completes an all-cat run — the (0,1) cat is braced
by the (0,0) cat, so the push pass leaves the line intact and the ply
is won. -/
def winStateC9 : GameState :=
  { board := (Board.emptyBoard.place_piece (0, 0) ⟨PieceType.cat, Color.orange⟩).place_piece
      (0, 1) ⟨PieceType.cat, Color.orange⟩
    players := ({ Player.init Color.orange with
                    pool := [⟨PieceType.cat, Color.orange⟩, ⟨PieceType.kitten, Color.orange⟩] },
                Player.init Color.gray)
    currentPlayerIdx := 0
    winner := none
    moveCount := 10 }

/-- Two orange kittens each with an off-board push destination from a
placement at (1,1): both are knocked off at once, so the orange pool
gains two kittens, not one. -/
def cexBoardC6 : Board :=
  ((Board.emptyBoard.place_piece (0, 0) ⟨PieceType.kitten, Color.orange⟩).place_piece
    (1, 0) ⟨PieceType.kitten, Color.orange⟩).place_piece
    (1, 1) ⟨PieceType.kitten, Color.gray⟩

/-- Standard player pair for the push counterexample. -/
def plsC6 : Player × Player :=
  (Player.init Color.orange, Player.init Color.gray)

/-- A state whose player to move has an empty pool: terminal for the
search, no valid actions. -/
def sEmptyPool : GameState :=
  { GameState.init with
      players := ({ Player.init Color.orange with pool := [] }, Player.init Color.gray) }

/-- A concrete numeric model of `math.sqrt` for witnesses. -/
def sq0 : ℕ → ℚ := fun n => (Nat.sqrt n : ℚ)

/-- A concrete evaluator for witnesses: uniform policy, value 0. -/
def pr0 : GameState → List ℚ × ℚ := fun _ => (List.replicate 108 (1 / 108), 0)

/-- A concrete `np.power` model for witnesses (identity in `q`). -/
def pow0 : ℚ → ℚ → ℚ := fun q _ => q

/-- The draw `np.random.choice` is forced to make on a distribution
concentrated on the pass slot 72. -/
def sample72 : List ℚ → ℕ := fun _ => 72

/-- The cats a graduating run returns to the pool, in removal order
(raw reads, as `remove_piece` performs them). -/
def lineCats (b : Board) (line : List Pos) : List Piece :=
  line.filterMap (fun p =>
    match b p with
    | some pc => if pc.ptype == PieceType.cat then some pc else none
    | none => none)

/-- A graduating run of 2 orange cats and 1 orange kitten on row 2, with
the full starting reserve. -/
def gradStateC8 : GameState :=
  { board := ((Board.emptyBoard.place_piece (2, 2) ⟨PieceType.cat, Color.orange⟩).place_piece
      (2, 3) ⟨PieceType.cat, Color.orange⟩).place_piece
      (2, 4) ⟨PieceType.kitten, Color.orange⟩
    players := (Player.init Color.orange, Player.init Color.gray)
    currentPlayerIdx := 0
    winner := none
    moveCount := 6 }

/-- A gray kitten placed at (2,2) next to an orange kitten at (2,3) that
is braced by another piece at (2,4). -/
def blockBoardC7 : Board :=
  ((Board.emptyBoard.place_piece (2, 3) ⟨PieceType.kitten, Color.orange⟩).place_piece
    (2, 4) ⟨PieceType.kitten, Color.orange⟩).place_piece
    (2, 2) ⟨PieceType.kitten, Color.gray⟩

/-- The body of the per-child assignment loop of `MCTS._get_action_probs`
(the function folded by `assignProbs`). -/
def assignStep (t : Tree) (temp : ℚ) (acc : List ℚ) (c : Tree) : List ℚ :=
  match c.action with
  | some a =>
    let idx := (encode_action a.1 a.2.1 a.2.2).toNat
    if temp = 0 then
      let visitCounts := t.children.map Tree.visit
      let maxV := visitCounts.foldr max 0
      if c.visit = maxV then acc.set idx (1 / (visitCounts.count maxV : ℚ)) else acc
    else acc.set idx (c.visit : ℚ)
  | none => acc

/-! # Theorems -/

/-! ## Failure paths of `play_move` (C4, C10) -/

theorem popFirst_fst_eq_none {l : List Piece} {t : PieceType}
    (h : ∀ p ∈ l, p.ptype ≠ t) : (popFirst l t).1 = none := by
  induction l with
  | nil => rfl
  | cons p rest ih =>
    have hp : (p.ptype == t) = false := by
      simp only [beq_eq_false_iff_ne, ne_eq]
      exact h p (List.mem_cons_self p rest)
    simp only [popFirst, hp, Bool.false_eq_true, if_false]
    exact ih fun q hq => h q (List.mem_cons_of_mem p hq)

/-- **C4** (error handling of `play_move`).  If the target cell is not
empty, or the acting player's pool holds no piece of the requested
rank, `play_move` returns `False` and the state — board, pools,
reserves, current player, ply counter and winner — is returned exactly
as it was; no exception path exists (the embedding is total on these
branches). -/
theorem play_move_invalid_no_change (s : GameState) (row col : ℤ) (t : PieceType)
    (h : s.board.is_empty (row, col) = false
      ∨ ∀ p ∈ s.get_current_player.pool, p.ptype ≠ t) :
    play_move s row col t = (false, s) := by
  rcases h with h | h
  · simp [play_move, afterPlace, h]
  · have hpf := popFirst_fst_eq_none h
    unfold play_move afterPlace
    cases he : s.board.is_empty (row, col) with
    | false => simp
    | true => simp [Player.get_piece_from_pool, hpf]

/-- Witness for C4: at the initial state the pool holds no cat, and the
move is rejected without touching the state. -/
theorem play_move_invalid_no_change_witness :
    (∀ p ∈ GameState.init.get_current_player.pool, p.ptype ≠ PieceType.cat)
      ∧ play_move GameState.init 2 2 PieceType.cat = (false, GameState.init) :=
  ⟨by decide, play_move_invalid_no_change _ _ _ _ (Or.inr (by decide))⟩

/-- **C10** (out-of-bounds placements).  For any coordinates outside the
6×6 board, `play_move` returns `False` with the state unchanged: the
occupancy check `Board.is_empty` treats out-of-bounds cells as
non-empty, so the move is rejected before anything is touched. -/
theorem play_move_out_of_bounds (s : GameState) (row col : ℤ) (t : PieceType)
    (h : is_valid_position (row, col) = false) :
    play_move s row col t = (false, s) := by
  have hne : s.board.is_empty (row, col) = false := by
    simp [Board.is_empty, h]
  simp [play_move, afterPlace, hne]

/-- Witness for C10: the out-of-bounds cell (6,0). -/
theorem play_move_out_of_bounds_witness :
    is_valid_position (6, 0) = false
      ∧ play_move GameState.init 6 0 PieceType.kitten = (false, GameState.init) :=
  ⟨by decide, play_move_out_of_bounds _ _ _ _ (by decide)⟩

/-! ## Win detection (C2) -/

/-- **C2 counterexample.**  With 8 orange cats and 1 orange kitten on
the board, none of them aligned, the acting player has no all-cat run,
yet `check_win` reports orange as winner — while the spec's condition
("all 8 of the player's pieces on the board and all of them Cats") is
false, since orange has 9 pieces on the board and one is a kitten.  So
the claimed equivalence fails at this state. -/
theorem check_win_eight_cats_cex :
    (find_lines_of_three cexStateC2.board cexStateC2.get_current_player.color).all
        (fun line => !lineAllCats cexStateC2.board line) = true
      ∧ check_win cexStateC2 = some Color.orange
      ∧ specEightOnBoardAllCats cexStateC2 Color.orange = false :=
  ⟨by decide, by decide, by decide⟩

/-- **C2 amended.**  In a state where the acting player has no
3-in-a-row of their cats, `check_win` reports that player as winner iff
exactly 8 cats of that player's color are on the board — regardless of
how many of the player's kittens are also on the board. -/
theorem check_win_eight_cats_amended (s : GameState)
    (h : (find_lines_of_three s.board s.get_current_player.color).all
        (fun line => !lineAllCats s.board line) = true) :
    (check_win s = some s.get_current_player.color
      ↔ boardCatCount s.board s.get_current_player.color = 8) := by
  have hany : (find_lines_of_three s.board s.get_current_player.color).any
      (fun line => lineAllCats s.board line) = false := by
    rw [List.any_eq_false]
    intro line hline
    have := List.all_eq_true.mp h line hline
    simp only [Bool.not_eq_true'] at this
    simp [this]
  unfold check_win
  rw [if_neg (by simp [hany])]
  by_cases hc : boardCatCount s.board s.get_current_player.color = 8 <;> simp [hc]

/-- Witness for C2 (amended): the initial state — no lines, no cats, no
win. -/
theorem check_win_eight_cats_witness :
    ((find_lines_of_three GameState.init.board GameState.init.get_current_player.color).all
        (fun line => !lineAllCats GameState.init.board line) = true)
      ∧ (check_win GameState.init = some GameState.init.get_current_player.color
          ↔ boardCatCount GameState.init.board GameState.init.get_current_player.color = 8) :=
  ⟨by decide, check_win_eight_cats_amended _ (by decide)⟩

/-! ## Counting toolbox -/

theorem set_current_player_idx (s : GameState) (pl : Player) :
    (s.set_current_player pl).currentPlayerIdx = s.currentPlayerIdx := by
  unfold GameState.set_current_player
  split <;> rfl

theorem get_piece_valid (b : Board) {p : Pos} (h : is_valid_position p = true) :
    b.get_piece p = b p := by
  unfold Board.get_piece
  rw [if_pos h]

theorem get_piece_update_ne (b : Board) {p q : Pos} (v : Option Piece) (h : q ≠ p) :
    Board.get_piece (Function.update b p v) q = b.get_piece q := by
  unfold Board.get_piece
  rw [Function.update_noteq h]

theorem boardCellList_nodup : boardCellList.Nodup := by decide

theorem mem_boardCellList {p : Pos} : p ∈ boardCellList ↔ is_valid_position p = true := by
  constructor
  · intro h
    exact (by decide : ∀ q ∈ boardCellList, is_valid_position q = true) p h
  · intro h
    obtain ⟨x, y⟩ := p
    simp only [is_valid_position, Bool.and_eq_true, decide_eq_true_eq] at h
    obtain ⟨⟨⟨h1, h2⟩, h3⟩, h4⟩ := h
    interval_cases x <;> interval_cases y <;> decide

theorem map_update_not_mem {l : List Pos} {q : Pos} (hq : q ∉ l) (b : Board) (v : Option Piece) :
    l.map (Function.update b q v) = l.map b :=
  List.map_congr_left fun x hx => by
    have hne : x ≠ q := fun he => hq (he ▸ hx)
    exact Function.update_noteq hne v b

theorem countP_map_update_mem {q : Pos} (v : Option Piece) (f : Option Piece → Bool) :
    ∀ {l : List Pos} (b : Board), l.Nodup → q ∈ l →
    (l.map (Function.update b q v)).countP f + (if f (b q) then 1 else 0)
      = (l.map b).countP f + (if f v then 1 else 0) := by
  intro l
  induction l with
  | nil => intro b _ hq; simp at hq
  | cons p rest ih =>
    intro b hnd hq
    rw [List.nodup_cons] at hnd
    rcases List.mem_cons.mp hq with rfl | hmem
    · have hrest : rest.map (Function.update b q v) = rest.map b :=
        map_update_not_mem hnd.1 b v
      simp only [List.map_cons, List.countP_cons, hrest, Function.update_same]
      by_cases hfv : f v <;> by_cases hfb : f (b q) <;> simp [hfv, hfb]
    · have hpq : p ≠ q := fun he => hnd.1 (he ▸ hmem)
      have hhead : Function.update b q v p = b p := Function.update_noteq hpq v b
      simp only [List.map_cons, List.countP_cons, hhead]
      have h2 := ih b hnd.2 hmem
      omega

theorem map_get_piece_cells (b : Board) :
    boardCellList.map b.get_piece = boardCellList.map b :=
  List.map_congr_left fun p hp => get_piece_valid b (mem_boardCellList.mp hp)

/-- Removing/placing at a valid cell shifts the per-piece board count by
the indicators of the old and the new content. -/
theorem countBoardPiece_update {b : Board} {q : Pos} (hq : is_valid_position q = true)
    (v : Option Piece) (c : Color) (t : PieceType) :
    countBoardPiece (Function.update b q v) c t
        + (if b q == some (⟨t, c⟩ : Piece) then 1 else 0)
      = countBoardPiece b c t + (if v == some (⟨t, c⟩ : Piece) then 1 else 0) := by
  unfold countBoardPiece
  rw [map_get_piece_cells, map_get_piece_cells]
  exact countP_map_update_mem v _ b boardCellList_nodup (mem_boardCellList.mpr hq)

theorem countBoardPiece_update_invalid {b : Board} {q : Pos}
    (hq : is_valid_position q = false) (v : Option Piece) (c : Color) (t : PieceType) :
    countBoardPiece (Function.update b q v) c t = countBoardPiece b c t := by
  unfold countBoardPiece
  rw [map_get_piece_cells, map_get_piece_cells,
    map_update_not_mem (fun hmem => by rw [mem_boardCellList.mp hmem] at hq; cases hq) b v]

/-! ## Graduation accounting (C8 machinery) -/

theorem lineCats_reads_congr {l : List Pos} {b b' : Board}
    (h : ∀ p ∈ l, b' p = b p) : lineCats b' l = lineCats b l := by
  unfold lineCats
  induction l with
  | nil => rfl
  | cons p rest ih =>
    simp only [List.filterMap_cons, h p (List.mem_cons_self p rest)]
    rw [ih fun q hq => h q (List.mem_cons_of_mem p hq)]

theorem countP_eq_reads_congr {l : List Pos} {b b' : Board}
    (h : ∀ p ∈ l, b' p = b p) (op : Option Piece) :
    l.countP (fun q => b' q == op) = l.countP (fun q => b q == op) := by
  induction l with
  | nil => rfl
  | cons p rest ih =>
    simp only [List.countP_cons, h p (List.mem_cons_self p rest)]
    rw [ih fun q hq => h q (List.mem_cons_of_mem p hq)]

theorem lineCats_cons (b : Board) (p : Pos) (rest : List Pos) :
    lineCats b (p :: rest)
      = (match b p with
          | some pc => if pc.ptype == PieceType.cat then [pc] else []
          | none => []) ++ lineCats b rest := by
  unfold lineCats
  rw [List.filterMap_cons]
  cases b p with
  | none => rfl
  | some pc => by_cases h : pc.ptype == PieceType.cat <;> simp [h]

/-- The removal fold of `graduate_line`: the pool gains exactly the cats
of the run (in order), the reserve and the player color are untouched,
and the per-piece board counts drop by the pieces the run held. -/
theorem gradFold_spec :
    ∀ (line : List Pos) (pl : Player) (b : Board), line.Nodup →
    (∀ p ∈ line, is_valid_position p = true) →
    (line.foldl gradRemoveStep (pl, b)).1.pool = pl.pool ++ lineCats b line
    ∧ (line.foldl gradRemoveStep (pl, b)).1.reserve = pl.reserve
    ∧ (line.foldl gradRemoveStep (pl, b)).1.color = pl.color
    ∧ ∀ c t, countBoardPiece (line.foldl gradRemoveStep (pl, b)).2 c t
        + line.countP (fun p => b p == some (⟨t, c⟩ : Piece))
        = countBoardPiece b c t := by
  intro line
  induction line with
  | nil =>
    intro pl b _ _
    refine ⟨by simp [lineCats], rfl, rfl, fun c t => by simp⟩
  | cons p rest ih =>
    intro pl b hnd hval
    rw [List.nodup_cons] at hnd
    have hvp : is_valid_position p = true := hval p (List.mem_cons_self p rest)
    have hvrest : ∀ q ∈ rest, is_valid_position q = true :=
      fun q hq => hval q (List.mem_cons_of_mem p hq)
    have hreads : ∀ q ∈ rest, (Function.update b p none) q = b q := fun q hq =>
      Function.update_noteq (fun (he : q = p) => hnd.1 (he ▸ hq)) none b
    rw [List.foldl_cons]
    have hstep : gradRemoveStep (pl, b) p
        = (match b p with
            | some pc => if pc.ptype == PieceType.cat then pl.return_to_pool pc else pl
            | none => pl,
           Function.update b p none) := by
      cases hbp : b p with
      | none => simp [gradRemoveStep, Board.remove_piece, hbp]
      | some pc =>
        by_cases h : pc.ptype == PieceType.cat <;>
          simp [gradRemoveStep, Board.remove_piece, hbp, h]
    rw [hstep]
    set pl1 := (match b p with
      | some pc => if pc.ptype == PieceType.cat then pl.return_to_pool pc else pl
      | none => pl) with hpl1
    obtain ⟨hpool, hres, hcol, hcnt⟩ := ih pl1 (Function.update b p none) hnd.2 hvrest
    refine ⟨?_, ?_, ?_, ?_⟩
    · rw [hpool, lineCats_reads_congr hreads, lineCats_cons]
      cases hbp : b p with
      | none => simp [hpl1, hbp, lineCats]
      | some pc =>
        by_cases hc : pc.ptype == PieceType.cat
        · simp [hpl1, hbp, hc, Player.return_to_pool, lineCats]
        · simp [hpl1, hbp, hc, lineCats]
    · rw [hres]
      cases hbp : b p with
      | none => simp [hpl1, hbp]
      | some pc =>
        by_cases hc : pc.ptype == PieceType.cat
        · simp [hpl1, hbp, hc, Player.return_to_pool]
        · simp [hpl1, hbp, hc]
    · rw [hcol]
      cases hbp : b p with
      | none => simp [hpl1, hbp]
      | some pc =>
        by_cases hc : pc.ptype == PieceType.cat
        · simp [hpl1, hbp, hc, Player.return_to_pool]
        · simp [hpl1, hbp, hc]
    · intro c t
      have h1 := hcnt c t
      have h2 : rest.countP (fun q => (Function.update b p none) q == some (⟨t, c⟩ : Piece))
          = rest.countP (fun q => b q == some (⟨t, c⟩ : Piece)) :=
        countP_eq_reads_congr hreads _
      have h3 := @countBoardPiece_update b p hvp none c t
      simp only [List.countP_cons]
      rw [h2] at h1
      have h4 : (none == some (⟨t, c⟩ : Piece)) = false := rfl
      simp only [h4, Bool.false_eq_true, if_false] at h3
      omega



theorem getLast?_exists {α : Type} {l : List α} {a : α} (h : l.getLast? = some a) :
    ∃ l', l = l' ++ [a] := by
  rcases List.eq_nil_or_concat l with rfl | ⟨l', x, rfl⟩
  · simp at h
  · rw [List.concat_eq_append, List.getLast?_concat] at h
    injection h with h
    exact ⟨l', by rw [h, List.concat_eq_append]⟩

theorem gradStep_spec (pl : Player) :
    (gradStep pl).color = pl.color
    ∧ (∀ f, (gradStep pl).pool.countP f + (gradStep pl).reserve.countP f
        = pl.pool.countP f + pl.reserve.countP f)
    ∧ (pl.reserve ≠ [] →
        (gradStep pl).pool.length = pl.pool.length + 1
        ∧ (gradStep pl).reserve.length + 1 = pl.reserve.length)
    ∧ (pl.reserve = [] → gradStep pl = pl) := by
  cases hl : pl.reserve.getLast? with
  | none =>
    have hnil : pl.reserve = [] := List.getLast?_eq_none_iff.mp hl
    refine ⟨by simp [gradStep, hl], fun f => by simp [gradStep, hl], ?_, fun _ => by simp [gradStep, hl]⟩
    intro hne
    exact absurd hnil hne
  | some a =>
    obtain ⟨l', hrep⟩ := getLast?_exists hl
    refine ⟨by simp [gradStep, hl], fun f => ?_, fun _ => ?_, fun hnil => ?_⟩
    · simp [gradStep, hl, hrep, List.countP_append, List.dropLast_concat, List.countP_cons]
      omega
    · simp [gradStep, hl, hrep, List.dropLast_concat]
    · rw [hnil] at hrep
      exact absurd hrep.symm (by simp)

theorem graduate_kittens_spec (pl : Player) :
    (pl.graduate_kittens 3).color = pl.color
    ∧ (∀ f, (pl.graduate_kittens 3).pool.countP f + (pl.graduate_kittens 3).reserve.countP f
        = pl.pool.countP f + pl.reserve.countP f)
    ∧ (3 ≤ pl.reserve.length →
        (pl.graduate_kittens 3).pool.length = pl.pool.length + 3
        ∧ (pl.graduate_kittens 3).reserve.length + 3 = pl.reserve.length)
    ∧ (pl.reserve.length < 3 → pl.graduate_kittens 3 = pl) := by
  unfold Player.graduate_kittens
  by_cases h : 3 ≤ pl.reserve.length
  · rw [if_pos h]
    have hit : gradStep^[3] pl = gradStep (gradStep (gradStep pl)) := by
      rfl
    rw [hit]
    obtain ⟨c1, f1, len1, _⟩ := gradStep_spec pl
    have hne1 : pl.reserve ≠ [] := by
      intro hc; rw [hc] at h; simp at h
    obtain ⟨hl1, hr1⟩ := len1 hne1
    obtain ⟨c2, f2, len2, _⟩ := gradStep_spec (gradStep pl)
    have hne2 : (gradStep pl).reserve ≠ [] := by
      intro hc
      have := hr1
      rw [hc] at this
      simp at this
      omega
    obtain ⟨hl2, hr2⟩ := len2 hne2
    obtain ⟨c3, f3, len3, _⟩ := gradStep_spec (gradStep (gradStep pl))
    have hne3 : (gradStep (gradStep pl)).reserve ≠ [] := by
      intro hc
      have := hr2
      rw [hc] at this
      simp at this
      omega
    obtain ⟨hl3, hr3⟩ := len3 hne3
    refine ⟨by rw [c3, c2, c1], fun f => ?_, fun _ => ⟨by omega, by omega⟩, fun hlt => by omega⟩
    have := f1 f
    have := f2 f
    have := f3 f
    omega
  · rw [if_neg h]
    exact ⟨rfl, fun f => rfl, fun hge => absurd hge h, fun _ => rfl⟩


/-! ## Graduation conservation (C8) -/

theorem get_set_current_player (s : GameState) (pl : Player) :
    (s.set_current_player pl).get_current_player = pl := by
  unfold GameState.set_current_player GameState.get_current_player
  by_cases h : s.currentPlayerIdx = 0 <;> simp [h]

theorem countAll_decomp (s : GameState) (c : Color) (t : PieceType) :
    countAll s c t
      = (s.get_current_player.pool.countP (fun p => p == (⟨t, c⟩ : Piece))
          + s.get_current_player.reserve.countP (fun p => p == (⟨t, c⟩ : Piece)))
        + (s.get_opponent.pool.countP (fun p => p == (⟨t, c⟩ : Piece))
          + s.get_opponent.reserve.countP (fun p => p == (⟨t, c⟩ : Piece)))
        + countBoardPiece s.board c t := by
  unfold countAll pairZones GameState.get_current_player GameState.get_opponent
  by_cases h : s.currentPlayerIdx = 0 <;> simp [h, List.countP_append] <;> omega

theorem countAll_decomp_set (s : GameState) (pl : Player) (b' : Board) (c : Color) (t : PieceType) :
    countAll { s.set_current_player pl with board := b' } c t
      = (pl.pool.countP (fun p => p == (⟨t, c⟩ : Piece))
          + pl.reserve.countP (fun p => p == (⟨t, c⟩ : Piece)))
        + (s.get_opponent.pool.countP (fun p => p == (⟨t, c⟩ : Piece))
          + s.get_opponent.reserve.countP (fun p => p == (⟨t, c⟩ : Piece)))
        + countBoardPiece b' c t := by
  unfold countAll pairZones GameState.set_current_player GameState.get_opponent
  by_cases h : s.currentPlayerIdx = 0 <;> simp [h, List.countP_append] <;> omega

/-- **C8.**  Graduating a run of 2 cats and 1 kitten of the acting
player: the pool grows by exactly the 2 cats of the run plus — exactly
when the reserve holds at least 3 pieces — 3 pieces moved from the
reserve (whose length drops by exactly 3; with fewer than 3 in reserve
nothing moves); exactly one piece (the kitten) leaves all zones, and no
cat is created or destroyed. -/
theorem graduation_conservation (s : GameState) (p1 p2 p3 : Pos)
    (hnd : ([p1, p2, p3] : List Pos).Nodup)
    (hval : ∀ p ∈ ([p1, p2, p3] : List Pos), is_valid_position p = true)
    (hperm : (([p1, p2, p3] : List Pos).map s.board.get_piece).Perm
      [some ⟨PieceType.cat, s.get_current_player.color⟩,
       some ⟨PieceType.cat, s.get_current_player.color⟩,
       some ⟨PieceType.kitten, s.get_current_player.color⟩]) :
    (graduate_line s [p1, p2, p3]).get_current_player.pool.length
        = s.get_current_player.pool.length + 2
          + (if 3 ≤ s.get_current_player.reserve.length then 3 else 0)
    ∧ (graduate_line s [p1, p2, p3]).get_current_player.reserve.length
          + (if 3 ≤ s.get_current_player.reserve.length then 3 else 0)
        = s.get_current_player.reserve.length
    ∧ countAll (graduate_line s [p1, p2, p3]) s.get_current_player.color PieceType.kitten + 1
        = countAll s s.get_current_player.color PieceType.kitten
    ∧ countAll (graduate_line s [p1, p2, p3]) s.get_current_player.color PieceType.cat
        = countAll s s.get_current_player.color PieceType.cat := by
  set col := s.get_current_player.color with hcol
  set catC : Piece := ⟨PieceType.cat, col⟩ with hcatC
  set kitC : Piece := ⟨PieceType.kitten, col⟩ with hkitC
  -- raw reads agree with get_piece on the valid run cells
  have hraw : ∀ p ∈ ([p1, p2, p3] : List Pos), s.board.get_piece p = s.board p :=
    fun p hp => get_piece_valid s.board (hval p hp)
  -- every run cell holds one of the two run pieces
  have hvals : ∀ p ∈ ([p1, p2, p3] : List Pos),
      s.board p = some catC ∨ s.board p = some kitC := by
    intro p hp
    have hx : s.board.get_piece p ∈
        [some catC, some catC, some kitC] :=
      hperm.mem_iff.mp (List.mem_map_of_mem _ hp)
    rw [hraw p hp] at hx
    simp only [List.mem_cons, List.mem_singleton, List.not_mem_nil, or_false] at hx
    tauto
  have h1v := hvals p1 (by simp)
  have h2v := hvals p2 (by simp)
  have h3v := hvals p3 (by simp)
  -- counts over the run, from the permutation
  have hckit : (([p1, p2, p3] : List Pos).countP (fun p => s.board p == some kitC)) = 1 := by
    have hmapped := hperm.countP_eq (fun op => op == some kitC)
    rw [List.countP_map] at hmapped
    have hc : (([p1, p2, p3] : List Pos).countP
        (fun p => s.board.get_piece p == some kitC))
        = (([p1, p2, p3] : List Pos).countP (fun p => s.board p == some kitC)) := by
      apply List.countP_congr
      intro p hp
      rw [hraw p hp]
    rw [show ((fun op => op == some kitC) ∘ s.board.get_piece)
        = fun p => s.board.get_piece p == some kitC from rfl] at hmapped
    rw [hc] at hmapped
    rw [hmapped]
    simp [hcatC, hkitC, List.countP_cons, Piece.mk.injEq]
  have hccat : (([p1, p2, p3] : List Pos).countP (fun p => s.board p == some catC)) = 2 := by
    have hmapped := hperm.countP_eq (fun op => op == some catC)
    rw [List.countP_map] at hmapped
    have hc : (([p1, p2, p3] : List Pos).countP
        (fun p => s.board.get_piece p == some catC))
        = (([p1, p2, p3] : List Pos).countP (fun p => s.board p == some catC)) := by
      apply List.countP_congr
      intro p hp
      rw [hraw p hp]
    rw [show ((fun op => op == some catC) ∘ s.board.get_piece)
        = fun p => s.board.get_piece p == some catC from rfl] at hmapped
    rw [hc] at hmapped
    rw [hmapped]
    simp [hcatC, hkitC, List.countP_cons, Piece.mk.injEq]
  -- the cats returned by the removal fold
  have hlineCats : lineCats s.board [p1, p2, p3] = [catC, catC] := by
    rcases h1v with h1 | h1 <;> rcases h2v with h2 | h2 <;> rcases h3v with h3 | h3 <;>
      simp only [List.countP_cons, List.countP_nil, h1, h2, h3] at hckit hccat <;>
      simp [lineCats, List.filterMap_cons, h1, h2, h3, hcatC, hkitC] at hckit hccat ⊢
  obtain ⟨hpool, hres, hcolf, hcnt⟩ :=
    gradFold_spec [p1, p2, p3] s.get_current_player s.board hnd hval
  set res := (([p1, p2, p3] : List Pos).foldl gradRemoveStep (s.get_current_player, s.board))
    with hresdef
  set pl2 := res.1.graduate_kittens 3 with hpl2
  have hgl : graduate_line s [p1, p2, p3]
      = { s.set_current_player pl2 with board := res.2 } := rfl
  obtain ⟨hkc, hkf, hklen, hklt⟩ := graduate_kittens_spec res.1
  have hcur : (graduate_line s [p1, p2, p3]).get_current_player = pl2 := by
    rw [hgl]
    have heq : ({ s.set_current_player pl2 with board := res.2 }).get_current_player
        = (s.set_current_player pl2).get_current_player := rfl
    rw [heq, get_set_current_player]
  have hpool_len : res.1.pool.length = s.get_current_player.pool.length + 2 := by
    rw [hpool, hlineCats]
    simp
  -- pool and reserve lengths of the graduated player
  have hlen_goal : pl2.pool.length = s.get_current_player.pool.length + 2
        + (if 3 ≤ s.get_current_player.reserve.length then 3 else 0)
      ∧ pl2.reserve.length + (if 3 ≤ s.get_current_player.reserve.length then 3 else 0)
        = s.get_current_player.reserve.length := by
    by_cases h3 : 3 ≤ s.get_current_player.reserve.length
    · have h3' : 3 ≤ res.1.reserve.length := by rw [hres]; exact h3
      obtain ⟨hp3, hr3⟩ := hklen h3'
      rw [if_pos h3]
      constructor
      · rw [← hpl2] at hp3
        omega
      · rw [← hpl2] at hr3
        rw [hres] at hr3
        omega
    · have h3' : res.1.reserve.length < 3 := by rw [hres]; omega
      have hid := hklt h3'
      rw [← hpl2] at hid
      rw [if_neg h3, hid, hres]
      omega
  -- countAll bookkeeping
  have hall : ∀ t : PieceType,
      countAll (graduate_line s [p1, p2, p3]) col t
          + (([p1, p2, p3] : List Pos).countP (fun p => s.board p == some (⟨t, col⟩ : Piece)))
        = countAll s col t
          + (lineCats s.board [p1, p2, p3]).countP (fun p => p == (⟨t, col⟩ : Piece)) := by
    intro t
    rw [hgl, countAll_decomp_set, countAll_decomp]
    have hzone := hkf (fun p => p == (⟨t, col⟩ : Piece))
    rw [← hpl2] at hzone
    have hpoolc : res.1.pool.countP (fun p => p == (⟨t, col⟩ : Piece))
        = s.get_current_player.pool.countP (fun p => p == (⟨t, col⟩ : Piece))
          + (lineCats s.board [p1, p2, p3]).countP (fun p => p == (⟨t, col⟩ : Piece)) := by
      rw [hpool, List.countP_append]
    have hresc : res.1.reserve.countP (fun p => p == (⟨t, col⟩ : Piece))
        = s.get_current_player.reserve.countP (fun p => p == (⟨t, col⟩ : Piece)) := by
      rw [hres]
    have hboard := hcnt col t
    omega
  have hkit := hall PieceType.kitten
  have hcat := hall PieceType.cat
  rw [hckit] at hkit
  rw [hccat] at hcat
  have hkitcats : (lineCats s.board [p1, p2, p3]).countP
      (fun p => p == (⟨PieceType.kitten, col⟩ : Piece)) = 0 := by
    rw [hlineCats]
    simp [hcatC, hkitC, List.countP_cons, Piece.mk.injEq]
  have hcatcats : (lineCats s.board [p1, p2, p3]).countP
      (fun p => p == (⟨PieceType.cat, col⟩ : Piece)) = 2 := by
    rw [hlineCats]
    simp [hcatC, List.countP_cons]
  rw [hkitcats] at hkit
  rw [hcatcats] at hcat
  exact ⟨by rw [hcur]; exact hlen_goal.1, by rw [hcur]; exact hlen_goal.2,
    by omega, by omega⟩


/-- Witness for C8: a concrete cat-cat-kitten run with the full 8-piece
reserve; the pool grows by 2+3 and exactly one kitten leaves the game. -/
theorem graduation_conservation_witness :
    (graduate_line gradStateC8 [(2, 2), (2, 3), (2, 4)]).get_current_player.pool.length
        = gradStateC8.get_current_player.pool.length + 2 + 3
    ∧ countAll (graduate_line gradStateC8 [(2, 2), (2, 3), (2, 4)])
          gradStateC8.get_current_player.color PieceType.kitten + 1
      = countAll gradStateC8 gradStateC8.get_current_player.color PieceType.kitten := by
  have h := graduation_conservation gradStateC8 (2, 2) (2, 3) (2, 4) (by decide) (by decide)
    (by decide)
  have h38 : (if 3 ≤ gradStateC8.get_current_player.reserve.length then 3 else 0) = 3 := by
    decide
  refine ⟨?_, h.2.2.1⟩
  have h1 := h.1
  rw [h38] at h1
  exact h1

/-! ## Conservation through one ply (C5 machinery) -/

theorem some_beq_some (x y : Piece) : ((some x == some y) : Bool) = (x == y) := rfl

theorem piece_beq_false_of_ptype {x y : Piece} (h : x.ptype ≠ y.ptype) : (x == y) = false :=
  beq_eq_false_iff_ne.mpr (fun he => h (he ▸ rfl))

theorem lineCats_countP_cat (b : Board) (line : List Pos) (c : Color) :
    (lineCats b line).countP (fun p => p == (⟨PieceType.cat, c⟩ : Piece))
      = line.countP (fun p => b p == some (⟨PieceType.cat, c⟩ : Piece)) := by
  induction line with
  | nil => rfl
  | cons p rest ih =>
    rw [lineCats_cons, List.countP_append, List.countP_cons, ih]
    cases hbp : b p with
    | none => simp
    | some pc =>
      cases hpt : pc.ptype with
      | cat =>
        simp only [hpt, beq_self_eq_true, if_true, List.countP_cons, List.countP_nil,
          some_beq_some]
        omega
      | kitten =>
        have hne : (pc == (⟨PieceType.cat, c⟩ : Piece)) = false :=
          piece_beq_false_of_ptype (by rw [hpt]; exact fun hc => PieceType.noConfusion hc)
        simp only [hpt, some_beq_some, hne]
        simp

theorem lineCats_countP_kitten (b : Board) (line : List Pos) (c : Color) :
    (lineCats b line).countP (fun p => p == (⟨PieceType.kitten, c⟩ : Piece)) = 0 := by
  induction line with
  | nil => rfl
  | cons p rest ih =>
    rw [lineCats_cons, List.countP_append, ih]
    cases hbp : b p with
    | none => simp
    | some pc =>
      cases hpt : pc.ptype with
      | cat =>
        have hne : (pc == (⟨PieceType.kitten, c⟩ : Piece)) = false :=
          piece_beq_false_of_ptype (by rw [hpt]; exact fun hc => PieceType.noConfusion hc)
        simp [hpt, hne]
      | kitten => simp [hpt]

/-- `graduate_line` conserves every (color, rank) count except the run's
kittens of that color, which leave the game. -/
theorem graduate_line_countAll (s : GameState) (line : List Pos) (hnd : line.Nodup)
    (hval : ∀ p ∈ line, is_valid_position p = true) (c : Color) :
    countAll (graduate_line s line) c PieceType.cat = countAll s c PieceType.cat
    ∧ countAll (graduate_line s line) c PieceType.kitten
        + line.countP (fun p => s.board p == some (⟨PieceType.kitten, c⟩ : Piece))
      = countAll s c PieceType.kitten := by
  obtain ⟨hpool, hres, hcolf, hcnt⟩ := gradFold_spec line s.get_current_player s.board hnd hval
  set res := (line.foldl gradRemoveStep (s.get_current_player, s.board)) with hresdef
  set pl2 := res.1.graduate_kittens 3 with hpl2
  have hgl : graduate_line s line = { s.set_current_player pl2 with board := res.2 } := rfl
  obtain ⟨hkc, hkf, _, _⟩ := graduate_kittens_spec res.1
  rw [← hpl2] at hkf
  constructor
  · rw [hgl, countAll_decomp_set, countAll_decomp]
    have hzone := hkf (fun p => p == (⟨PieceType.cat, c⟩ : Piece))
    have hpoolc := hpool ▸ (List.countP_append (fun p => p == (⟨PieceType.cat, c⟩ : Piece))
      s.get_current_player.pool (lineCats s.board line))
    have hresc : res.1.reserve.countP (fun p => p == (⟨PieceType.cat, c⟩ : Piece))
        = s.get_current_player.reserve.countP (fun p => p == (⟨PieceType.cat, c⟩ : Piece)) := by
      rw [hres]
    have hboard := hcnt c PieceType.cat
    have hlc := lineCats_countP_cat s.board line c
    omega
  · rw [hgl, countAll_decomp_set, countAll_decomp]
    have hzone := hkf (fun p => p == (⟨PieceType.kitten, c⟩ : Piece))
    have hpoolc := hpool ▸ (List.countP_append (fun p => p == (⟨PieceType.kitten, c⟩ : Piece))
      s.get_current_player.pool (lineCats s.board line))
    have hresc : res.1.reserve.countP (fun p => p == (⟨PieceType.kitten, c⟩ : Piece))
        = s.get_current_player.reserve.countP (fun p => p == (⟨PieceType.kitten, c⟩ : Piece)) := by
      rw [hres]
    have hboard := hcnt c PieceType.kitten
    have hlc := lineCats_countP_kitten s.board line c
    omega



theorem popFirst_some {t : PieceType} :
    ∀ {l : List Piece} {pc : Piece}, (popFirst l t).1 = some pc →
    pc.ptype = t
    ∧ ∀ f, l.countP f = (popFirst l t).2.countP f + (if f pc then 1 else 0) := by
  intro l
  induction l with
  | nil => intro pc h; cases h
  | cons p rest ih =>
    intro pc h
    by_cases hp : (p.ptype == t) = true
    · simp only [popFirst, hp, if_true] at h ⊢
      injection h with h
      subst h
      exact ⟨beq_iff_eq.mp hp, fun f => by simp only [List.countP_cons]⟩
    · simp only [popFirst, hp, Bool.false_eq_true, if_false] at h ⊢
      obtain ⟨hty, hcnt⟩ := ih h
      refine ⟨hty, fun f => ?_⟩
      have := hcnt f
      simp only [List.countP_cons]
      omega

theorem set_current_player_board (s : GameState) (pl : Player) :
    (s.set_current_player pl).board = s.board := by
  unfold GameState.set_current_player
  by_cases h : s.currentPlayerIdx = 0 <;> simp [h]

theorem set_current_player_winner (s : GameState) (pl : Player) :
    (s.set_current_player pl).winner = s.winner := by
  unfold GameState.set_current_player
  by_cases h : s.currentPlayerIdx = 0 <;> simp [h]

theorem countAll_eq_parts (s : GameState) (c : Color) (t : PieceType) :
    countAll s c t = pairZones s.players c t + countBoardPiece s.board c t := rfl

theorem pairZones_set (s : GameState) (pl : Player) (c : Color) (t : PieceType) :
    pairZones (s.set_current_player pl).players c t
      = (pl.pool.countP (fun p => p == (⟨t, c⟩ : Piece))
          + pl.reserve.countP (fun p => p == (⟨t, c⟩ : Piece)))
        + (s.get_opponent.pool.countP (fun p => p == (⟨t, c⟩ : Piece))
          + s.get_opponent.reserve.countP (fun p => p == (⟨t, c⟩ : Piece))) := by
  unfold pairZones GameState.set_current_player GameState.get_opponent
  by_cases h : s.currentPlayerIdx = 0 <;> simp [h, List.countP_append] <;> omega

theorem pairZones_decomp (s : GameState) (c : Color) (t : PieceType) :
    pairZones s.players c t
      = (s.get_current_player.pool.countP (fun p => p == (⟨t, c⟩ : Piece))
          + s.get_current_player.reserve.countP (fun p => p == (⟨t, c⟩ : Piece)))
        + (s.get_opponent.pool.countP (fun p => p == (⟨t, c⟩ : Piece))
          + s.get_opponent.reserve.countP (fun p => p == (⟨t, c⟩ : Piece))) := by
  unfold pairZones GameState.get_current_player GameState.get_opponent
  by_cases h : s.currentPlayerIdx = 0 <;> simp [h, List.countP_append] <;> omega

theorem afterPlace_proj {s s1 : GameState} {pos : Pos} {t : PieceType}
    (h : afterPlace s pos t = some s1) :
    ∃ pc : Piece, (popFirst s.get_current_player.pool t).1 = some pc
      ∧ s1.players = (s.set_current_player
          { s.get_current_player with pool := (popFirst s.get_current_player.pool t).2 }).players
      ∧ s1.board = s.board.place_piece pos pc
      ∧ s1.currentPlayerIdx = s.currentPlayerIdx
      ∧ s1.winner = s.winner
      ∧ s.board.is_empty pos = true := by
  unfold afterPlace at h
  by_cases he : s.board.is_empty pos
  · rw [if_neg (by simp [he])] at h
    cases hp : (s.get_current_player.get_piece_from_pool t).1 with
    | none => rw [hp] at h; cases h
    | some pc =>
      rw [hp] at h
      injection h with h
      subst h
      refine ⟨pc, hp, rfl, ?_, ?_, ?_, he⟩
      · show (s.set_current_player _).board.place_piece pos pc = s.board.place_piece pos pc
        rw [set_current_player_board]
      · show (s.set_current_player _).currentPlayerIdx = s.currentPlayerIdx
        exact set_current_player_idx s _
      · show (s.set_current_player _).winner = s.winner
        exact set_current_player_winner s _
  · rw [if_pos (by simp only [Bool.not_eq_true] at he; simp [he])] at h
    cases h

/-- Placing a piece moves it from the pool to the board: all counts are
conserved. -/
theorem afterPlace_countAll {s s1 : GameState} {pos : Pos} {t : PieceType}
    (h : afterPlace s pos t = some s1) (c : Color) (ty : PieceType) :
    countAll s1 c ty = countAll s c ty := by
  obtain ⟨pc, hpop, hplayers, hboard, _, _, hemp⟩ := afterPlace_proj h
  obtain ⟨hty, hcnt⟩ := popFirst_some hpop
  rw [countAll_eq_parts s1, countAll_eq_parts s, hplayers, hboard, pairZones_set,
    pairZones_decomp]
  have hc := hcnt (fun p => p == (⟨ty, c⟩ : Piece))
  have hvalid : is_valid_position pos = true := by
    unfold Board.is_empty at hemp
    exact ((Bool.and_eq_true _ _).mp hemp).1
  have hnone : s.board pos = none := by
    unfold Board.is_empty at hemp
    exact Option.isNone_iff_eq_none.mp ((Bool.and_eq_true _ _).mp hemp).2
  have hb := @countBoardPiece_update s.board pos hvalid (some pc) c ty
  rw [hnone] at hb
  have hn : ((none : Option Piece) == some (⟨ty, c⟩ : Piece)) = false := rfl
  rw [hn] at hb
  simp only [Bool.false_eq_true, if_false] at hb
  have hsome : ((some pc == some (⟨ty, c⟩ : Piece)) : Bool) = (pc == (⟨ty, c⟩ : Piece)) := rfl
  rw [hsome] at hb
  unfold Board.place_piece
  have hj : ({ s.get_current_player with
      pool := (popFirst s.get_current_player.pool t).2 } : Player).pool
    = (popFirst s.get_current_player.pool t).2 := rfl
  have hk : ({ s.get_current_player with
      pool := (popFirst s.get_current_player.pool t).2 } : Player).reserve
    = s.get_current_player.reserve := rfl
  rw [hj, hk]
  omega


theorem boopStep_count (placed : Piece) (placedPos : Pos) (acc : Board × List Piece)
    (adj : Pos) (c : Color) (t : PieceType) :
    countBoardPiece (boopStep placed placedPos acc adj).1 c t
        + (boopStep placed placedPos acc adj).2.countP (fun p => p == (⟨t, c⟩ : Piece))
      = countBoardPiece acc.1 c t + acc.2.countP (fun p => p == (⟨t, c⟩ : Piece)) := by
  unfold boopStep
  cases hadj : acc.1.get_piece adj with
  | none => rfl
  | some target =>
    have hvadj : is_valid_position adj = true := by
      by_contra hv
      unfold Board.get_piece at hadj
      rw [if_neg (by simpa using hv)] at hadj
      cases hadj
    have hraw : acc.1 adj = some target := by
      rw [← get_piece_valid acc.1 hvadj, hadj]
    by_cases hcb : placed.can_boop target
    · simp only [hcb, Bool.not_true, Bool.false_eq_true, if_false]
      by_cases hbl : is_blocked_by_line_of_two acc.1 adj
          (calculate_push_direction placedPos adj)
      · simp only [hbl, if_true]
      · simp only [hbl, Bool.false_eq_true, if_false]
        by_cases hdv : is_valid_position
            (adj.1 + (calculate_push_direction placedPos adj).1,
             adj.2 + (calculate_push_direction placedPos adj).2)
        · simp only [hdv, Bool.not_true, Bool.false_eq_true, if_false]
          by_cases hde : acc.1.is_empty
              (adj.1 + (calculate_push_direction placedPos adj).1,
               adj.2 + (calculate_push_direction placedPos adj).2)
          · simp only [hde, if_true]
            set dest : Pos := (adj.1 + (calculate_push_direction placedPos adj).1,
              adj.2 + (calculate_push_direction placedPos adj).2) with hdest
            have hdadj : dest ≠ adj := by
              intro hda
              unfold Board.is_empty at hde
              have h2 := ((Bool.and_eq_true _ _).mp hde).2
              rw [hda, hraw] at h2
              cases h2
            have hdnone : acc.1 dest = none := by
              unfold Board.is_empty at hde
              exact Option.isNone_iff_eq_none.mp ((Bool.and_eq_true _ _).mp hde).2
            have hvd : is_valid_position dest = true := by
              unfold Board.is_empty at hde
              exact ((Bool.and_eq_true _ _).mp hde).1
            unfold Board.move_piece Board.remove_piece
            simp only [hraw]
            have hemp2 : Board.is_empty (Function.update acc.1 adj none) dest = true := by
              unfold Board.is_empty
              rw [Function.update_noteq hdadj, hvd]
              rw [hdnone]
              rfl
            rw [if_pos hemp2]
            unfold Board.place_piece
            have h1 := @countBoardPiece_update acc.1 adj hvadj none c t
            have h2 := @countBoardPiece_update (Function.update acc.1 adj none) dest hvd (some target) c t
            rw [Function.update_noteq hdadj, hdnone] at h2
            rw [hraw] at h1
            have hn : ((none : Option Piece) == some (⟨t, c⟩ : Piece)) = false := rfl
            rw [hn] at h1 h2
            simp only [Bool.false_eq_true, if_false] at h1 h2
            have hsome : ((some target == some (⟨t, c⟩ : Piece)) : Bool)
                = (target == (⟨t, c⟩ : Piece)) := rfl
            rw [hsome] at h1 h2
            omega
          · simp only [hde, Bool.false_eq_true, if_false]
        · simp only [hdv, Bool.not_false, if_true]
          unfold Board.remove_piece
          have h1 := @countBoardPiece_update acc.1 adj hvadj none c t
          rw [hraw] at h1
          have hn : ((none : Option Piece) == some (⟨t, c⟩ : Piece)) = false := rfl
          rw [hn] at h1
          simp only [Bool.false_eq_true, if_false] at h1
          have hsome : ((some target == some (⟨t, c⟩ : Piece)) : Bool)
              = (target == (⟨t, c⟩ : Piece)) := rfl
          rw [hsome] at h1
          rw [List.countP_append]
          simp only [List.countP_cons, List.countP_nil]
          omega
    · simp only [hcb]
      simp

theorem boopFold_count (placed : Piece) (placedPos : Pos) (c : Color) (t : PieceType) :
    ∀ (l : List Pos) (acc : Board × List Piece),
    countBoardPiece (l.foldl (boopStep placed placedPos) acc).1 c t
        + (l.foldl (boopStep placed placedPos) acc).2.countP (fun p => p == (⟨t, c⟩ : Piece))
      = countBoardPiece acc.1 c t + acc.2.countP (fun p => p == (⟨t, c⟩ : Piece)) := by
  intro l
  induction l with
  | nil => intro acc; rfl
  | cons adj rest ih =>
    intro acc
    rw [List.foldl_cons]
    rw [ih (boopStep placed placedPos acc adj)]
    exact boopStep_count placed placedPos acc adj c t

/-- Push resolution conserves pieces: what leaves the board is exactly
the knocked-off list. -/
theorem resolve_boop_count (b : Board) (pos : Pos) (c : Color) (t : PieceType) :
    countBoardPiece (resolve_boop b pos).1 c t
        + (resolve_boop b pos).2.countP (fun p => p == (⟨t, c⟩ : Piece))
      = countBoardPiece b c t := by
  unfold resolve_boop
  cases hp : b.get_piece pos with
  | none => rfl
  | some placed =>
    have := boopFold_count placed pos c t (get_all_adjacent pos) (b, [])
    simpa using this

theorem returnBoopedStep_spec (pls : Player × Player) (pc : Piece)
    (h1 : pls.1.color = Color.orange) (h2 : pls.2.color = Color.gray) :
    (returnBoopedStep pls pc).1.color = Color.orange
    ∧ (returnBoopedStep pls pc).2.color = Color.gray
    ∧ (returnBoopedStep pls pc).1.reserve = pls.1.reserve
    ∧ (returnBoopedStep pls pc).2.reserve = pls.2.reserve
    ∧ ∀ f, (returnBoopedStep pls pc).1.pool.countP f + (returnBoopedStep pls pc).2.pool.countP f
        = pls.1.pool.countP f + pls.2.pool.countP f + (if f pc then 1 else 0) := by
  unfold returnBoopedStep
  cases hc : pc.color with
  | orange =>
    have hm1 : (pls.1.color == Color.orange) = true := by rw [h1]; rfl
    have hm2 : (pls.2.color == Color.orange) = false := by rw [h2]; rfl
    rw [hm1, hm2]
    simp only [if_true, Bool.false_eq_true, if_false]
    refine ⟨by simp [Player.return_to_pool, h1], h2, rfl, trivial, fun f => ?_⟩
    unfold Player.return_to_pool
    simp only [List.countP_append, List.countP_cons, List.countP_nil]
    omega
  | gray =>
    have hm1 : (pls.1.color == Color.gray) = false := by rw [h1]; rfl
    have hm2 : (pls.2.color == Color.gray) = true := by rw [h2]; rfl
    rw [hm1, hm2]
    simp only [if_true, Bool.false_eq_true, if_false]
    refine ⟨h1, by simp [Player.return_to_pool, h2], trivial, rfl, fun f => ?_⟩
    unfold Player.return_to_pool
    simp only [List.countP_append, List.countP_cons, List.countP_nil]
    omega

theorem returnBooped_fold_spec (booped : List Piece) :
    ∀ (pls : Player × Player), pls.1.color = Color.orange → pls.2.color = Color.gray →
    (booped.foldl returnBoopedStep pls).1.color = Color.orange
    ∧ (booped.foldl returnBoopedStep pls).2.color = Color.gray
    ∧ (booped.foldl returnBoopedStep pls).1.reserve = pls.1.reserve
    ∧ (booped.foldl returnBoopedStep pls).2.reserve = pls.2.reserve
    ∧ ∀ f, (booped.foldl returnBoopedStep pls).1.pool.countP f
          + (booped.foldl returnBoopedStep pls).2.pool.countP f
        = pls.1.pool.countP f + pls.2.pool.countP f + booped.countP f := by
  induction booped with
  | nil =>
    intro pls h1 h2
    exact ⟨h1, h2, rfl, rfl, fun f => by simp⟩
  | cons pc rest ih =>
    intro pls h1 h2
    obtain ⟨s1, s2, s3, s4, s5⟩ := returnBoopedStep_spec pls pc h1 h2
    obtain ⟨i1, i2, i3, i4, i5⟩ := ih (returnBoopedStep pls pc) s1 s2
    rw [List.foldl_cons]
    refine ⟨i1, i2, by rw [i3, s3], by rw [i4, s4], fun f => ?_⟩
    have := i5 f
    have := s5 f
    simp only [List.countP_cons]
    omega


theorem pairZones_expand (pls : Player × Player) (c : Color) (t : PieceType) :
    pairZones pls c t
      = pls.1.pool.countP (fun p => p == (⟨t, c⟩ : Piece))
        + pls.1.reserve.countP (fun p => p == (⟨t, c⟩ : Piece))
        + pls.2.pool.countP (fun p => p == (⟨t, c⟩ : Piece))
        + pls.2.reserve.countP (fun p => p == (⟨t, c⟩ : Piece)) := by
  unfold pairZones
  simp only [List.countP_append]

/-- The push pass plus the booped-return loop conserve every count. -/
theorem afterBoop_countAll {s : GameState} (pos : Pos)
    (h1 : s.players.1.color = Color.orange) (h2 : s.players.2.color = Color.gray)
    (c : Color) (t : PieceType) :
    countAll (afterBoop s pos) c t = countAll s c t := by
  obtain ⟨_, _, r3, r4, r5⟩ := returnBooped_fold_spec (resolve_boop s.board pos).2
    s.players h1 h2
  have hb := resolve_boop_count s.board pos c t
  have hz := r5 (fun p => p == (⟨t, c⟩ : Piece))
  rw [countAll_eq_parts, countAll_eq_parts]
  have hplayers : (afterBoop s pos).players
      = (resolve_boop s.board pos).2.foldl returnBoopedStep s.players := rfl
  have hboard : (afterBoop s pos).board = (resolve_boop s.board pos).1 := rfl
  rw [hplayers, hboard, pairZones_expand, pairZones_expand, r3, r4]
  omega

theorem afterBoop_colors {s : GameState} (pos : Pos)
    (h1 : s.players.1.color = Color.orange) (h2 : s.players.2.color = Color.gray) :
    (afterBoop s pos).players.1.color = Color.orange
    ∧ (afterBoop s pos).players.2.color = Color.gray := by
  obtain ⟨c1, c2, _, _, _⟩ := returnBooped_fold_spec (resolve_boop s.board pos).2
    s.players h1 h2
  exact ⟨c1, c2⟩

theorem set_current_player_colors (s : GameState) (pl : Player)
    (h : pl.color = s.get_current_player.color) :
    (s.set_current_player pl).players.1.color = s.players.1.color
    ∧ (s.set_current_player pl).players.2.color = s.players.2.color := by
  unfold GameState.set_current_player
  unfold GameState.get_current_player at h
  by_cases hi : s.currentPlayerIdx = 0
  · rw [if_pos hi] at h ⊢
    exact ⟨h, rfl⟩
  · rw [if_neg hi] at h ⊢
    exact ⟨rfl, h⟩

theorem afterPlace_colors {s s1 : GameState} {pos : Pos} {t : PieceType}
    (h : afterPlace s pos t = some s1) :
    s1.players.1.color = s.players.1.color ∧ s1.players.2.color = s.players.2.color := by
  obtain ⟨pc, _, hplayers, _, _, _, _⟩ := afterPlace_proj h
  rw [hplayers]
  exact set_current_player_colors s _ rfl

theorem gradFold_color (line : List Pos) :
    ∀ acc : Player × Board, (line.foldl gradRemoveStep acc).1.color = acc.1.color := by
  induction line with
  | nil => intro acc; rfl
  | cons p rest ih =>
    intro acc
    rw [List.foldl_cons, ih]
    unfold gradRemoveStep
    cases (acc.2.remove_piece p).1 with
    | none => rfl
    | some pc =>
      by_cases h : (pc.ptype == PieceType.cat) = true <;>
        simp [h, Player.return_to_pool]

theorem graduate_line_colors (s : GameState) (line : List Pos) :
    (graduate_line s line).players.1.color = s.players.1.color
    ∧ (graduate_line s line).players.2.color = s.players.2.color := by
  have hpl2 : ((line.foldl gradRemoveStep (s.get_current_player, s.board)).1.graduate_kittens
      3).color = s.get_current_player.color := by
    obtain ⟨hkc, _, _, _⟩ := graduate_kittens_spec
      (line.foldl gradRemoveStep (s.get_current_player, s.board)).1
    rw [hkc, gradFold_color]
  have hplayers : (graduate_line s line).players
      = (s.set_current_player
          ((line.foldl gradRemoveStep (s.get_current_player, s.board)).1.graduate_kittens
            3)).players := rfl
  rw [hplayers]
  exact set_current_player_colors s _ hpl2


theorem lineCandidates_ok :
    ∀ line ∈ lineCandidates, line.Nodup ∧ ∀ p ∈ line, is_valid_position p = true := by
  decide

theorem gradLineChoice_mem {s : GameState} {c : Color} {line : List Pos}
    (h : gradLineChoice s c = some line) : line ∈ lineCandidates := by
  unfold gradLineChoice at h
  have hmem := List.mem_of_find?_eq_some h
  unfold find_lines_of_three at hmem
  exact (List.mem_filter.mp hmem).1

theorem afterGrad_countAll (s2 : GameState) (colorArg : Color) (c : Color) :
    countAll (afterGrad s2 colorArg) c PieceType.cat = countAll s2 c PieceType.cat
    ∧ countAll (afterGrad s2 colorArg) c PieceType.kitten
        + (match gradLineChoice s2 colorArg with
           | none => 0
           | some line => kittensInLine s2.board line c)
      = countAll s2 c PieceType.kitten := by
  unfold afterGrad
  cases h : gradLineChoice s2 colorArg with
  | none => exact ⟨rfl, by simp⟩
  | some line =>
    have hmem := gradLineChoice_mem h
    obtain ⟨hnd, hval⟩ := lineCandidates_ok line hmem
    obtain ⟨hcat, hkit⟩ := graduate_line_countAll s2 line hnd hval c
    have hkl : kittensInLine s2.board line c
        = line.countP (fun p => s2.board p == some (⟨PieceType.kitten, c⟩ : Piece)) := by
      unfold kittensInLine
      apply List.countP_congr
      intro p hp
      rw [get_piece_valid s2.board (hval p hp)]
    constructor
    · show countAll (graduate_line s2 line) c PieceType.cat = countAll s2 c PieceType.cat
      exact hcat
    · show countAll (graduate_line s2 line) c PieceType.kitten
          + kittensInLine s2.board line c = countAll s2 c PieceType.kitten
      rw [hkl]
      exact hkit

theorem afterGrad_colors (s2 : GameState) (colorArg : Color) :
    (afterGrad s2 colorArg).players.1.color = s2.players.1.color
    ∧ (afterGrad s2 colorArg).players.2.color = s2.players.2.color := by
  unfold afterGrad
  cases h : gradLineChoice s2 colorArg with
  | none => exact ⟨rfl, rfl⟩
  | some line => exact graduate_line_colors s2 line

/-- One successful ply conserves cats exactly and kittens up to the
graduated run, and keeps the player colors. -/
theorem play_move_step {s : GameState} (row col : ℤ) (t : PieceType)
    (h1 : s.players.1.color = Color.orange) (h2 : s.players.2.color = Color.gray)
    (hsucc : (play_move s row col t).1 = true) (c : Color) :
    countAll (play_move s row col t).2 c PieceType.cat = countAll s c PieceType.cat
    ∧ countAll (play_move s row col t).2 c PieceType.kitten + gradKittensOf s row col t c
        = countAll s c PieceType.kitten
    ∧ (play_move s row col t).2.players.1.color = Color.orange
    ∧ (play_move s row col t).2.players.2.color = Color.gray := by
  cases hs : afterPlace s (row, col) t with
  | none =>
    unfold play_move at hsucc
    rw [hs] at hsucc
    cases hsucc
  | some s1 =>
    have hcp := afterPlace_colors hs
    have hb1 : s1.players.1.color = Color.orange := by rw [hcp.1]; exact h1
    have hb2 : s1.players.2.color = Color.gray := by rw [hcp.2]; exact h2
    have hcB := @afterBoop_colors s1 (row, col) hb1 hb2
    have hcG := afterGrad_colors (afterBoop s1 (row, col)) s.get_current_player.color
    have hcntG := afterGrad_countAll (afterBoop s1 (row, col)) s.get_current_player.color c
    have hgk : gradKittensOf s row col t c
        = (match gradLineChoice (afterBoop s1 (row, col)) s.get_current_player.color with
           | none => 0
           | some line => kittensInLine (afterBoop s1 (row, col)).board line c) := by
      unfold gradKittensOf
      rw [hs]
    have hpm : play_move s row col t
        = match check_win (afterGrad (afterBoop s1 (row, col)) s.get_current_player.color) with
          | some w =>
            (true, { afterGrad (afterBoop s1 (row, col)) s.get_current_player.color
                       with winner := some w })
          | none =>
            (true,
              (afterGrad (afterBoop s1 (row, col)) s.get_current_player.color).switch_player) := by
      unfold play_move
      rw [hs]
    have hfinal : (play_move s row col t).2.players
          = (afterGrad (afterBoop s1 (row, col)) s.get_current_player.color).players
        ∧ (play_move s row col t).2.board
          = (afterGrad (afterBoop s1 (row, col)) s.get_current_player.color).board := by
      rw [hpm]
      cases hw : check_win (afterGrad (afterBoop s1 (row, col)) s.get_current_player.color) with
      | some w => exact ⟨rfl, rfl⟩
      | none => exact ⟨rfl, rfl⟩
    have hCA : ∀ ty, countAll (play_move s row col t).2 c ty
        = countAll (afterGrad (afterBoop s1 (row, col)) s.get_current_player.color) c ty := by
      intro ty
      rw [countAll_eq_parts, countAll_eq_parts, hfinal.1, hfinal.2]
    refine ⟨?_, ?_, ?_, ?_⟩
    · rw [hCA PieceType.cat, hcntG.1, @afterBoop_countAll s1 (row, col) hb1 hb2,
        afterPlace_countAll hs]
    · rw [hCA PieceType.kitten, hgk]
      have hk := hcntG.2
      have hB := @afterBoop_countAll s1 (row, col) hb1 hb2 c PieceType.kitten
      have hP := afterPlace_countAll hs c PieceType.kitten
      omega
    · rw [hfinal.1, hcG.1, hcB.1]
    · rw [hfinal.1, hcG.2, hcB.2]

/-- The reachable-state invariant: player colors are fixed, per color 8
cats always exist across the zones, and kittens are the starting 8
minus exactly the graduation removals. -/
theorem reachable_invariant : ∀ {s : GameState} {rem : Color → ℕ}, ReachableG s rem →
    (s.players.1.color = Color.orange ∧ s.players.2.color = Color.gray)
    ∧ ∀ c, countAll s c PieceType.cat = 8 ∧ countAll s c PieceType.kitten + rem c = 8 := by
  intro s rem h
  induction h with
  | init =>
    refine ⟨⟨rfl, rfl⟩, fun c => ?_⟩
    cases c <;> exact ⟨by decide, by decide⟩
  | step s' rem' row col t hr hsucc ih =>
    obtain ⟨⟨h1, h2⟩, hc⟩ := ih
    have hcolors := play_move_step row col t h1 h2 hsucc Color.orange
    refine ⟨⟨hcolors.2.2.1, hcolors.2.2.2⟩, fun c => ?_⟩
    obtain ⟨hcat, hkit, _, _⟩ := play_move_step row col t h1 h2 hsucc c
    obtain ⟨hcat8, hkit8⟩ := hc c
    refine ⟨by rw [hcat]; exact hcat8, ?_⟩
    show countAll (play_move s' row col t).2 c PieceType.kitten
        + (rem' c + gradKittensOf s' row col t c) = 8
    omega


/-- **C5** (conservation).  For every state reachable from the initial
state by successful `play_move` calls — `ReachableG` carries the running
count of kittens each graduation permanently removed, computed by
`gradKittensOf` from the same pipeline stages — and for each color:
the cats across pool + reserve + board always number exactly the
starting 8, and the kittens across pool + reserve + board equal the
starting 8 minus the kittens removed by graduation.  No piece is ever
created. -/
theorem piece_conservation {s : GameState} {rem : Color → ℕ} (h : ReachableG s rem)
    (c : Color) :
    countAll s c PieceType.cat = 8 ∧ countAll s c PieceType.kitten + rem c = 8 :=
  (reachable_invariant h).2 c

/-- Witness for C5: the state after one real ply. -/
theorem piece_conservation_witness :
    (play_move GameState.init 2 2 PieceType.kitten).1 = true
    ∧ (countAll (play_move GameState.init 2 2 PieceType.kitten).2 Color.orange PieceType.cat = 8
       ∧ countAll (play_move GameState.init 2 2 PieceType.kitten).2 Color.orange PieceType.kitten
           + (0 + gradKittensOf GameState.init 2 2 PieceType.kitten Color.orange) = 8) :=
  ⟨by decide,
   piece_conservation
     (ReachableG.step GameState.init (fun _ => 0) 2 2 PieceType.kitten ReachableG.init
       (by decide)) Color.orange⟩

/-! ## Push-pass characterization (C6, C7 machinery) -/
theorem directionList_nodup : directionList.Nodup := by decide

theorem mem_adjacent {pos n : Pos} (h : n ∈ get_all_adjacent pos) :
    is_valid_position n = true ∧ ∃ d ∈ directionList, n = (pos.1 + d.1, pos.2 + d.2) := by
  unfold get_all_adjacent at h
  have hm := List.mem_filter.mp h
  obtain ⟨d, hd, heq⟩ := List.mem_map.mp hm.1
  exact ⟨hm.2, d, hd, heq.symm⟩

theorem push_dir_adjacent {pos n : Pos} (h : n ∈ get_all_adjacent pos) :
    calculate_push_direction pos n = (n.1 - pos.1, n.2 - pos.2) := by
  obtain ⟨_, d, hd, rfl⟩ := mem_adjacent h
  unfold calculate_push_direction
  simp only [add_sub_cancel_left]
  fin_cases hd <;> decide

theorem adjacents_nodup (pos : Pos) : (get_all_adjacent pos).Nodup := by
  unfold get_all_adjacent
  apply List.Nodup.filter
  apply List.Nodup.map_on _ directionList_nodup
  intro d1 _ d2 _ heq
  have h1 : pos.1 + d1.1 = pos.1 + d2.1 := congrArg Prod.fst heq
  have h2 : pos.2 + d1.2 = pos.2 + d2.2 := congrArg Prod.snd heq
  have : d1.1 = d2.1 := by omega
  have : d1.2 = d2.2 := by omega
  exact Prod.ext (by omega) (by omega)

theorem dir_pair_facts :
    ∀ d ∈ directionList, ∀ e ∈ directionList,
      ((d.1 + d.1, d.2 + d.2) : Pos) ≠ e
      ∧ (d ≠ e → ((d.1 + d.1, d.2 + d.2) : Pos) ≠ (e.1 + e.1, e.2 + e.2)) := by
  decide

/-- `destOf` on adjacent cells is the mirror cell `2n - pos`. -/
theorem destOf_adjacent {pos n : Pos} (h : n ∈ get_all_adjacent pos) :
    destOf pos n = (n.1 + (n.1 - pos.1), n.2 + (n.2 - pos.2)) := by
  unfold destOf
  rw [push_dir_adjacent h]

theorem destOf_ne_adjacent {pos n m : Pos} (hn : n ∈ get_all_adjacent pos)
    (hm : m ∈ get_all_adjacent pos) : destOf pos n ≠ m := by
  obtain ⟨_, d, hd, rfl⟩ := mem_adjacent hn
  obtain ⟨_, e, he, rfl⟩ := mem_adjacent hm
  rw [destOf_adjacent hn]
  have hf := (dir_pair_facts d hd e he).1
  intro hc
  apply hf
  have h1 := congrArg Prod.fst hc
  have h2 := congrArg Prod.snd hc
  simp only at h1 h2
  exact Prod.ext (by omega) (by omega)

theorem destOf_ne_destOf {pos n m : Pos} (hn : n ∈ get_all_adjacent pos)
    (hm : m ∈ get_all_adjacent pos) (hne : n ≠ m) : destOf pos n ≠ destOf pos m := by
  obtain ⟨_, d, hd, rfl⟩ := mem_adjacent hn
  obtain ⟨_, e, he, rfl⟩ := mem_adjacent hm
  rw [destOf_adjacent hn, destOf_adjacent hm]
  have hdne : d ≠ e := by
    intro hc
    exact hne (by rw [hc])
  have hf := (dir_pair_facts d hd e he).2 hdne
  intro hc
  apply hf
  have h1 := congrArg Prod.fst hc
  have h2 := congrArg Prod.snd hc
  simp only at h1 h2
  exact Prod.ext (by omega) (by omega)


theorem move_piece_untouched (b : Board) (f t q : Pos) (hq1 : q ≠ f) (hq2 : q ≠ t) :
    b.move_piece f t q = b q := by
  unfold Board.move_piece
  cases hm : (b.remove_piece f).1 with
  | none =>
    show Function.update b f none q = b q
    exact Function.update_noteq hq1 none b
  | some pc =>
    show (if (b.remove_piece f).2.is_empty t = true
        then (b.remove_piece f).2.place_piece t pc else (b.remove_piece f).2) q = b q
    by_cases hemp : (b.remove_piece f).2.is_empty t = true
    · rw [if_pos hemp]
      show Function.update (Function.update b f none) t (some pc) q = b q
      rw [Function.update_noteq hq2, Function.update_noteq hq1]
    · rw [if_neg hemp]
      show Function.update b f none q = b q
      exact Function.update_noteq hq1 none b

theorem move_piece_spec (b : Board) (f t : Pos) (pc : Piece) (hf : b f = some pc)
    (hemp : Board.is_empty (Function.update b f none) t = true) :
    b.move_piece f t = Function.update (Function.update b f none) t (some pc) := by
  unfold Board.move_piece
  cases hm : (b.remove_piece f).1 with
  | none =>
    rw [show (b.remove_piece f).1 = b f from rfl, hf] at hm
    cases hm
  | some pc2 =>
    rw [show (b.remove_piece f).1 = b f from rfl, hf] at hm
    injection hm with hm
    subst hm
    show (if (b.remove_piece f).2.is_empty t = true
        then (b.remove_piece f).2.place_piece t pc else (b.remove_piece f).2)
      = Function.update (Function.update b f none) t (some pc)
    rw [if_pos (show (b.remove_piece f).2.is_empty t = true from hemp)]
    rfl

/-- `boopStep` never writes outside the neighbour cell and its push
destination. -/
theorem boopStep_untouched (placed : Piece) (pos : Pos) (st : Board × List Piece)
    (adj q : Pos) (hq1 : q ≠ adj) (hq2 : q ≠ destOf pos adj) :
    (boopStep placed pos st adj).1 q = st.1 q := by
  unfold boopStep
  cases hadj : st.1.get_piece adj with
  | none => rfl
  | some target =>
    by_cases hcb : placed.can_boop target
    · simp only [hcb, Bool.not_true, Bool.false_eq_true, if_false]
      by_cases hbl : is_blocked_by_line_of_two st.1 adj (calculate_push_direction pos adj)
      · simp only [hbl, if_true]
      · simp only [hbl, Bool.false_eq_true, if_false]
        by_cases hdv : is_valid_position (adj.1 + (calculate_push_direction pos adj).1,
            adj.2 + (calculate_push_direction pos adj).2)
        · simp only [hdv, Bool.not_true, Bool.false_eq_true, if_false]
          by_cases hde : st.1.is_empty (adj.1 + (calculate_push_direction pos adj).1,
              adj.2 + (calculate_push_direction pos adj).2)
          · simp only [hde, if_true]
            exact move_piece_untouched st.1 adj _ q hq1 hq2
          · simp only [hde, Bool.false_eq_true, if_false]
        · simp only [hdv, Bool.not_false, if_true]
          show Function.update st.1 adj none q = st.1 q
          exact Function.update_noteq hq1 none st.1
    · simp only [hcb]
      simp

theorem boopFold_untouched (placed : Piece) (pos : Pos) :
    ∀ (todo : List Pos) (st : Board × List Piece) (q : Pos),
    (∀ n ∈ todo, q ≠ n ∧ q ≠ destOf pos n) →
    (todo.foldl (boopStep placed pos) st).1 q = st.1 q := by
  intro todo
  induction todo with
  | nil => intro st q _; rfl
  | cons n rest ih =>
    intro st q hq
    rw [List.foldl_cons]
    rw [ih (boopStep placed pos st n) q
      (fun m hm => hq m (List.mem_cons_of_mem n hm))]
    exact boopStep_untouched placed pos st n q
      (hq n (List.mem_cons_self n rest)).1 (hq n (List.mem_cons_self n rest)).2

theorem get_piece_eq_of_raw {b b' : Board} {q : Pos} (h : b' q = b q) :
    b'.get_piece q = b.get_piece q := by
  unfold Board.get_piece
  rw [h]

theorem is_blocked_eq_of_raw {b b' : Board} {n : Pos} {d : Pos}
    (h : b' (n.1 + d.1, n.2 + d.2) = b (n.1 + d.1, n.2 + d.2)) :
    is_blocked_by_line_of_two b' n d = is_blocked_by_line_of_two b n d := by
  unfold is_blocked_by_line_of_two
  rw [get_piece_eq_of_raw h]

theorem is_empty_eq_of_raw {b b' : Board} {q : Pos} (h : b' q = b q) :
    b'.is_empty q = b.is_empty q := by
  unfold Board.is_empty
  rw [h]

/-- On a board that agrees with the placement-time board at the
neighbour cell and at its push destination, `boopStep` acts exactly as
`stepOutcome` classifies on the placement-time board. -/
theorem boopStep_outcome (placed : Piece) (pos : Pos) (b : Board)
    (st : Board × List Piece) (n : Pos) (hvn : is_valid_position n = true)
    (hb1 : st.1 n = b n) (hb2 : st.1 (destOf pos n) = b (destOf pos n)) :
    (stepOutcome placed b pos n = BoopOutcome.skipB → boopStep placed pos st n = st)
    ∧ (∀ tgt, b.get_piece n = some tgt → stepOutcome placed b pos n = BoopOutcome.moveB →
        boopStep placed pos st n
          = (Function.update (Function.update st.1 n none) (destOf pos n) (some tgt), st.2))
    ∧ (∀ tgt, b.get_piece n = some tgt → stepOutcome placed b pos n = BoopOutcome.knockB →
        boopStep placed pos st n = (Function.update st.1 n none, st.2 ++ [tgt])) := by
  have hget : st.1.get_piece n = b.get_piece n := get_piece_eq_of_raw hb1
  have hbl : is_blocked_by_line_of_two st.1 n (calculate_push_direction pos n)
      = is_blocked_by_line_of_two b n (calculate_push_direction pos n) :=
    is_blocked_eq_of_raw (by exact hb2)
  have hie : st.1.is_empty (n.1 + (calculate_push_direction pos n).1,
        n.2 + (calculate_push_direction pos n).2)
      = b.is_empty (n.1 + (calculate_push_direction pos n).1,
        n.2 + (calculate_push_direction pos n).2) :=
    is_empty_eq_of_raw (by exact hb2)
  unfold boopStep stepOutcome
  rw [hget, hbl, hie]
  cases hn : b.get_piece n with
  | none =>
    refine ⟨?_, ?_, ?_⟩
    · first
      | trivial
      | (intro _; rfl)
    · intro tgt htgt hc
      cases htgt
    · intro tgt htgt hc
      cases htgt
  | some target =>
    by_cases hcb : placed.can_boop target
    · simp only [hcb, Bool.not_true, Bool.false_eq_true, if_false]
      by_cases hblv : is_blocked_by_line_of_two b n (calculate_push_direction pos n)
      · simp only [hblv, if_true]
        refine ⟨?_, ?_, ?_⟩
        · first
          | trivial
          | (intro _; rfl)
        · intro tgt htgt hc
          first
          | exact absurd hc (by decide)
          | exact hc.elim
        · intro tgt htgt hc
          first
          | exact absurd hc (by decide)
          | exact hc.elim
      · simp only [hblv, Bool.false_eq_true, if_false]
        by_cases hdv : is_valid_position (n.1 + (calculate_push_direction pos n).1,
            n.2 + (calculate_push_direction pos n).2)
        · simp only [hdv, Bool.not_true, Bool.false_eq_true, if_false]
          by_cases hde : b.is_empty (n.1 + (calculate_push_direction pos n).1,
              n.2 + (calculate_push_direction pos n).2)
          · simp only [hde, if_true]
            refine ⟨?_, ?_, ?_⟩
            · intro hc
              first
              | exact absurd hc (by decide)
              | exact hc.elim
            · intro tgt htgt _
              have htgt2 : target = tgt := by injection htgt
              subst htgt2
              have hraw : b n = some target := by
                rw [← get_piece_valid b hvn, hn]
              have hdne : (n.1 + (calculate_push_direction pos n).1,
                  n.2 + (calculate_push_direction pos n).2) ≠ n := by
                intro hc
                unfold Board.is_empty at hde
                have h2 := ((Bool.and_eq_true _ _).mp hde).2
                rw [hc, hraw] at h2
                cases h2
              have hemp2 : Board.is_empty (Function.update st.1 n none)
                  (n.1 + (calculate_push_direction pos n).1,
                   n.2 + (calculate_push_direction pos n).2) = true := by
                unfold Board.is_empty
                rw [Function.update_noteq hdne]
                show (is_valid_position (destOf pos n)
                  && ((st.1 (destOf pos n)).isNone : Bool)) = true
                rw [hb2]
                unfold Board.is_empty at hde
                exact hde
              have hmv := move_piece_spec st.1 n (n.1 + (calculate_push_direction pos n).1,
                  n.2 + (calculate_push_direction pos n).2) target (by rw [hb1, hraw]) hemp2
              rw [hmv]
              rfl
            · intro tgt htgt hc
              first
              | exact absurd hc (by decide)
              | exact hc.elim
          · simp only [hde, Bool.false_eq_true, if_false]
            refine ⟨?_, ?_, ?_⟩
            · first
              | trivial
              | (intro _; rfl)
            · intro tgt htgt hc
              first
              | exact absurd hc (by decide)
              | exact hc.elim
            · intro tgt htgt hc
              first
              | exact absurd hc (by decide)
              | exact hc.elim
        · simp only [hdv, Bool.not_false, if_true]
          refine ⟨?_, ?_, ?_⟩
          · intro hc
            first
            | exact absurd hc (by decide)
            | exact hc.elim
          · intro tgt htgt hc
            first
            | exact absurd hc (by decide)
            | exact hc.elim
          · intro tgt htgt _
            have htgt2 : target = tgt := by injection htgt
            subst htgt2
            show ((st.1 n, Function.update st.1 n none).2, st.2 ++ [target])
              = (Function.update st.1 n none, st.2 ++ [target])
            rfl
    · simp only [hcb]
      simp only [Bool.not_false, if_true]
      refine ⟨?_, ?_, ?_⟩
      · first
        | trivial
        | (intro _; rfl)
      · intro tgt htgt hc
        first
        | exact absurd hc (by decide)
        | exact hc.elim
      · intro tgt htgt hc
        first
        | exact absurd hc (by decide)
        | exact hc.elim


theorem stepOutcome_target {placed : Piece} {b : Board} {pos n : Pos}
    (h : stepOutcome placed b pos n ≠ BoopOutcome.skipB) :
    ∃ tgt, b.get_piece n = some tgt := by
  unfold stepOutcome at h
  cases hn : b.get_piece n with
  | none => rw [hn] at h; exact absurd rfl h
  | some tgt => exact ⟨tgt, rfl⟩

/-- The push fold acts on every pending neighbour exactly as classified
on the placement-time board, and collects exactly the knocked-off
pieces. -/
theorem boopFold_main (placed : Piece) (pos : Pos) (b : Board) :
    ∀ (todo : List Pos) (st : Board × List Piece),
    todo.Nodup →
    (∀ n ∈ todo, n ∈ get_all_adjacent pos) →
    (∀ n ∈ todo, st.1 n = b n) →
    (∀ n ∈ todo, st.1 (destOf pos n) = b (destOf pos n)) →
    ((todo.foldl (boopStep placed pos) st).2
        = st.2 ++ todo.filterMap (fun m =>
            if stepOutcome placed b pos m == BoopOutcome.knockB then b.get_piece m else none))
    ∧ ∀ n ∈ todo,
        (stepOutcome placed b pos n = BoopOutcome.skipB →
          (todo.foldl (boopStep placed pos) st).1 n = st.1 n)
        ∧ (stepOutcome placed b pos n = BoopOutcome.moveB →
          (todo.foldl (boopStep placed pos) st).1 n = none
          ∧ (todo.foldl (boopStep placed pos) st).1 (destOf pos n) = b.get_piece n)
        ∧ (stepOutcome placed b pos n = BoopOutcome.knockB →
          (todo.foldl (boopStep placed pos) st).1 n = none) := by
  intro todo
  induction todo with
  | nil =>
    intro st _ _ _ _
    exact ⟨by simp, fun n hn => by cases hn⟩
  | cons n rest ih =>
    intro st hnd hmem hb1 hb2
    rw [List.nodup_cons] at hnd
    have hnA : n ∈ get_all_adjacent pos := hmem n (List.mem_cons_self n rest)
    have hvn : is_valid_position n = true := (mem_adjacent hnA).1
    have hmemr : ∀ m ∈ rest, m ∈ get_all_adjacent pos :=
      fun m hm => hmem m (List.mem_cons_of_mem n hm)
    obtain ⟨hOs, hOm, hOk⟩ := boopStep_outcome placed pos b st n hvn
      (hb1 n (List.mem_cons_self n rest)) (hb2 n (List.mem_cons_self n rest))
    -- the step touches only `n` and `destOf pos n`
    have huntouched : ∀ q : Pos, q ≠ n → q ≠ destOf pos n →
        (boopStep placed pos st n).1 q = st.1 q :=
      fun q h1 h2 => boopStep_untouched placed pos st n q h1 h2
    have hb1r : ∀ m ∈ rest, (boopStep placed pos st n).1 m = b m := by
      intro m hm
      rw [huntouched m (fun he => hnd.1 (he ▸ hm))
        (Ne.symm (destOf_ne_adjacent hnA (hmemr m hm)))]
      exact hb1 m (List.mem_cons_of_mem n hm)
    have hb2r : ∀ m ∈ rest, (boopStep placed pos st n).1 (destOf pos m)
        = b (destOf pos m) := by
      intro m hm
      have hmn : m ≠ n := fun he => hnd.1 (he ▸ hm)
      rw [huntouched (destOf pos m) (destOf_ne_adjacent (hmemr m hm) hnA)
        (destOf_ne_destOf (hmemr m hm) hnA hmn)]
      exact hb2 m (List.mem_cons_of_mem n hm)
    obtain ⟨ihb, ihn⟩ := ih (boopStep placed pos st n) hnd.2 hmemr hb1r hb2r
    -- the head cells survive the remaining steps
    have hsurvive_n : (rest.foldl (boopStep placed pos) (boopStep placed pos st n)).1 n
        = (boopStep placed pos st n).1 n := by
      apply boopFold_untouched
      intro m hm
      have hmn : m ≠ n := fun he => hnd.1 (he ▸ hm)
      exact ⟨fun he => hmn (he.symm), Ne.symm (destOf_ne_adjacent (hmemr m hm) hnA)⟩
    have hsurvive_d : (rest.foldl (boopStep placed pos)
          (boopStep placed pos st n)).1 (destOf pos n)
        = (boopStep placed pos st n).1 (destOf pos n) := by
      apply boopFold_untouched
      intro m hm
      have hmn : m ≠ n := fun he => hnd.1 (he ▸ hm)
      exact ⟨destOf_ne_adjacent hnA (hmemr m hm),
        destOf_ne_destOf hnA (hmemr m hm) (fun he => hmn he.symm)⟩
    rw [List.foldl_cons]
    constructor
    · -- the knocked-off list
      rw [ihb, List.filterMap_cons]
      cases hout : stepOutcome placed b pos n with
      | skipB =>
        rw [hOs hout]
        simp [hout]
      | moveB =>
        obtain ⟨tgt, htgt⟩ := stepOutcome_target (by rw [hout]; decide)
        rw [hOm tgt htgt hout]
        simp [hout]
      | knockB =>
        obtain ⟨tgt, htgt⟩ := stepOutcome_target (by rw [hout]; decide)
        rw [hOk tgt htgt hout]
        simp [hout, htgt]
    · intro m hm
      rcases List.mem_cons.mp hm with rfl | hmr
      · -- the head neighbour
        refine ⟨?_, ?_, ?_⟩
        · intro hout
          rw [hsurvive_n, hOs hout]
        · intro hout
          obtain ⟨tgt, htgt⟩ := stepOutcome_target (by rw [hout]; decide)
          have hne : m ≠ destOf pos m := Ne.symm (destOf_ne_adjacent hnA hnA)
          constructor
          · rw [hsurvive_n, hOm tgt htgt hout]
            show Function.update (Function.update st.1 m none) (destOf pos m) (some tgt) m
              = none
            rw [Function.update_noteq hne, Function.update_same]
          · rw [hsurvive_d, hOm tgt htgt hout]
            show Function.update (Function.update st.1 m none) (destOf pos m) (some tgt)
              (destOf pos m) = b.get_piece m
            rw [Function.update_same, htgt]
        · intro hout
          obtain ⟨tgt, htgt⟩ := stepOutcome_target (by rw [hout]; decide)
          rw [hsurvive_n, hOk tgt htgt hout]
          show Function.update st.1 m none m = none
          rw [Function.update_same]
      · obtain ⟨ihs, ihm, ihk⟩ := ihn m hmr
        refine ⟨?_, ihm, ihk⟩
        intro hout
        rw [ihs hout]
        rw [huntouched m (fun he => hnd.1 (he ▸ hmr))
          (Ne.symm (destOf_ne_adjacent hnA (hmemr m hmr)))]


/-! ## Win recording without a turn switch (C9) -/

theorem afterPlace_idx {s s1 : GameState} {pos : Pos} {t : PieceType}
    (h : afterPlace s pos t = some s1) :
    s1.currentPlayerIdx = s.currentPlayerIdx := by
  unfold afterPlace at h
  split at h
  · exact absurd h (by simp)
  · split at h
    · exact absurd h (by simp)
    · injection h with h
      subst h
      exact set_current_player_idx s _

theorem afterBoop_idx (s : GameState) (pos : Pos) :
    (afterBoop s pos).currentPlayerIdx = s.currentPlayerIdx := rfl

theorem graduate_line_idx (s : GameState) (line : List Pos) :
    (graduate_line s line).currentPlayerIdx = s.currentPlayerIdx := by
  unfold graduate_line
  exact set_current_player_idx s _

theorem afterGrad_idx (s : GameState) (c : Color) :
    (afterGrad s c).currentPlayerIdx = s.currentPlayerIdx := by
  unfold afterGrad
  split
  · exact graduate_line_idx s _
  · rfl

/-- **C9.**  When win detection finds a winner at the end of a ply,
`play_move` records it and returns without switching the current
player; afterwards `is_game_over` is true and `get_winner` returns that
color. -/
theorem win_recorded_no_switch (s : GameState) (row col : ℤ) (t : PieceType) (w : Color)
    (h1 : (afterPlace s (row, col) t).isSome = true)
    (h2 : check_win (preWinState s (row, col) t) = some w) :
    (play_move s row col t).1 = true
      ∧ (play_move s row col t).2.winner = some w
      ∧ (play_move s row col t).2.currentPlayerIdx = s.currentPlayerIdx
      ∧ is_game_over (play_move s row col t).2 = true
      ∧ get_winner (play_move s row col t).2 = some w := by
  cases hs : afterPlace s (row, col) t with
  | none => rw [hs] at h1; exact absurd h1 (by simp)
  | some s1 =>
    rw [preWinState, hs] at h2
    have hidx : s1.currentPlayerIdx = s.currentPlayerIdx := afterPlace_idx hs
    unfold play_move
    rw [hs]
    simp only [h2]
    refine ⟨trivial, trivial, ?_, ?_, rfl⟩
    · rw [afterGrad_idx, afterBoop_idx, hidx]
    · unfold is_game_over
      simp

/-- Witness for C9: completing an all-cat orange row at (0,2). -/
theorem win_recorded_no_switch_witness :
    ((afterPlace winStateC9 (0, 2) PieceType.cat).isSome = true)
      ∧ check_win (preWinState winStateC9 (0, 2) PieceType.cat) = some Color.orange
      ∧ (play_move winStateC9 0 2 PieceType.cat).2.winner = some Color.orange
      ∧ (play_move winStateC9 0 2 PieceType.cat).2.currentPlayerIdx
          = winStateC9.currentPlayerIdx
      ∧ is_game_over (play_move winStateC9 0 2 PieceType.cat).2 = true := by
  have h := win_recorded_no_switch winStateC9 0 2 PieceType.cat Color.orange
    (by decide) (by decide)
  exact ⟨by decide, by decide, h.2.1, h.2.2.1, h.2.2.2.1⟩

/-! ## Push resolution: blocking (C7) and push correctness (C6) -/

theorem stepOutcome_eq (placed target : Piece) (b : Board) (pos n : Pos)
    (htarget : b.get_piece n = some target) :
    stepOutcome placed b pos n
      = (if !placed.can_boop target then BoopOutcome.skipB
        else if is_blocked_by_line_of_two b n (calculate_push_direction pos n) then
          BoopOutcome.skipB
        else if !is_valid_position (destOf pos n) then BoopOutcome.knockB
        else if b.is_empty (destOf pos n) then BoopOutcome.moveB
        else BoopOutcome.skipB) := by
  unfold stepOutcome destOf
  rw [htarget]

theorem resolve_boop_spec (b : Board) (pos : Pos) (placed : Piece)
    (hplaced : b.get_piece pos = some placed) :
    (resolve_boop b pos).2 = knockedPieces placed b pos
    ∧ ∀ n ∈ get_all_adjacent pos,
        (stepOutcome placed b pos n = BoopOutcome.skipB →
          (resolve_boop b pos).1 n = b n)
        ∧ (stepOutcome placed b pos n = BoopOutcome.moveB →
          (resolve_boop b pos).1 n = none
          ∧ (resolve_boop b pos).1 (destOf pos n) = b.get_piece n)
        ∧ (stepOutcome placed b pos n = BoopOutcome.knockB →
          (resolve_boop b pos).1 n = none) := by
  have hres : resolve_boop b pos
      = (get_all_adjacent pos).foldl (boopStep placed pos) (b, []) := by
    unfold resolve_boop
    rw [hplaced]
  obtain ⟨hbooped, hcells⟩ := boopFold_main placed pos b (get_all_adjacent pos) (b, [])
    (adjacents_nodup pos) (fun _ hn => hn) (fun _ _ => rfl) (fun _ _ => rfl)
  rw [hres]
  exact ⟨by simpa [knockedPieces] using hbooped, hcells⟩

theorem returnBoopedStep_pool1 (pls : Player × Player) (pc : Piece) (f : Piece → Bool) :
    (returnBoopedStep pls pc).1.pool.countP f
      = pls.1.pool.countP f
        + (if pls.1.color == pc.color then (if f pc then 1 else 0) else 0) := by
  show (if pls.1.color == pc.color then pls.1.return_to_pool pc else pls.1).pool.countP f = _
  by_cases h : (pls.1.color == pc.color) = true
  · rw [if_pos h, if_pos h]
    unfold Player.return_to_pool
    simp [List.countP_append, List.countP_cons]
  · rw [if_neg h, if_neg h]
    simp

theorem returnBoopedStep_pool2 (pls : Player × Player) (pc : Piece) (f : Piece → Bool) :
    (returnBoopedStep pls pc).2.pool.countP f
      = pls.2.pool.countP f
        + (if pls.2.color == pc.color then (if f pc then 1 else 0) else 0) := by
  show (if pls.2.color == pc.color then pls.2.return_to_pool pc else pls.2).pool.countP f = _
  by_cases h : (pls.2.color == pc.color) = true
  · rw [if_pos h, if_pos h]
    unfold Player.return_to_pool
    simp [List.countP_append, List.countP_cons]
  · rw [if_neg h, if_neg h]
    simp

theorem returnBoopedStep_pick (pls : Player × Player) (pc : Piece)
    (h1 : pls.1.color = Color.orange) (h2 : pls.2.color = Color.gray)
    (c : Color) (t : PieceType) :
    poolRankCount (pickPlayer (returnBoopedStep pls pc) c) t
      = poolRankCount (pickPlayer pls c) t
        + (if pc.color == c && pc.ptype == t then 1 else 0) := by
  obtain ⟨hc1, hc2, _, _, _⟩ := returnBoopedStep_spec pls pc h1 h2
  unfold pickPlayer poolRankCount
  cases c with
  | orange =>
    have e1 : ((returnBoopedStep pls pc).1.color == Color.orange) = true := by
      rw [hc1]
      rfl
    have e2 : (pls.1.color == Color.orange) = true := by
      rw [h1]
      rfl
    simp only [e1, e2, if_true]
    rw [returnBoopedStep_pool1 pls pc (fun p => p.ptype == t)]
    cases hpc : pc.color with
    | orange => simp [h1]
    | gray => simp [h1]
  | gray =>
    have e1 : ((returnBoopedStep pls pc).1.color == Color.gray) = false := by
      rw [hc1]
      rfl
    have e2 : (pls.1.color == Color.gray) = false := by
      rw [h1]
      rfl
    simp only [e1, e2, Bool.false_eq_true, if_false]
    rw [returnBoopedStep_pool2 pls pc (fun p => p.ptype == t)]
    cases hpc : pc.color with
    | orange => simp [h2]
    | gray => simp [h2]

theorem returnBooped_pick (booped : List Piece) :
    ∀ (pls : Player × Player), pls.1.color = Color.orange → pls.2.color = Color.gray →
    ∀ (c : Color) (t : PieceType),
    poolRankCount (pickPlayer (booped.foldl returnBoopedStep pls) c) t
      = poolRankCount (pickPlayer pls c) t
        + booped.countP (fun p => p.color == c && p.ptype == t) := by
  induction booped with
  | nil =>
    intro pls h1 h2 c t
    simp
  | cons pc rest ih =>
    intro pls h1 h2 c t
    obtain ⟨hc1, hc2, _, _, _⟩ := returnBoopedStep_spec pls pc h1 h2
    rw [List.foldl_cons, List.countP_cons,
      ih (returnBoopedStep pls pc) hc1 hc2 c t,
      returnBoopedStep_pick pls pc h1 h2 c t]
    omega

/-- A blocked neighbour of the placed position is classified as a skip. -/
theorem stepOutcome_blocked (placed target : Piece) (b : Board) (pos n : Pos)
    (htarget : b.get_piece n = some target)
    (hbv : is_valid_position (destOf pos n) = true)
    (hbehind : (b.get_piece (destOf pos n)).isSome = true) :
    stepOutcome placed b pos n = BoopOutcome.skipB := by
  have hbl : is_blocked_by_line_of_two b n (calculate_push_direction pos n) = true := by
    unfold is_blocked_by_line_of_two
    have hd : ((n.1 + (calculate_push_direction pos n).1,
        n.2 + (calculate_push_direction pos n).2) : Pos) = destOf pos n := rfl
    rw [hd, if_pos hbv]
    exact hbehind
  rw [stepOutcome_eq placed target b pos n htarget, hbl]
  by_cases hcb : placed.can_boop target = true
  · simp [hcb]
  · simp [hcb]

/-- **C7.** During push resolution for any placement, a neighbouring
piece with another piece in the on-board cell directly behind it (one
further step along the push direction away from the pusher) stays on its
cell. -/
theorem line_of_two_blocking (b : Board) (pos n : Pos) (placed target : Piece)
    (hplaced : b.get_piece pos = some placed)
    (hn : n ∈ get_all_adjacent pos)
    (htarget : b.get_piece n = some target)
    (hbv : is_valid_position (destOf pos n) = true)
    (hbehind : (b.get_piece (destOf pos n)).isSome = true) :
    (resolve_boop b pos).1.get_piece n = some target := by
  have hvn : is_valid_position n = true := (mem_adjacent hn).1
  have hout : stepOutcome placed b pos n = BoopOutcome.skipB :=
    stepOutcome_blocked placed target b pos n htarget hbv hbehind
  obtain ⟨_, hcells⟩ := resolve_boop_spec b pos placed hplaced
  have hfix := (hcells n hn).1 hout
  rw [get_piece_valid _ hvn, hfix, ← get_piece_valid b hvn, htarget]

theorem line_of_two_blocking_witness :
    blockBoardC7.get_piece (2, 2) = some ⟨PieceType.kitten, Color.gray⟩
    ∧ ((2, 3) : Pos) ∈ get_all_adjacent (2, 2)
    ∧ blockBoardC7.get_piece (2, 3) = some ⟨PieceType.kitten, Color.orange⟩
    ∧ is_valid_position (destOf (2, 2) (2, 3)) = true
    ∧ (blockBoardC7.get_piece (destOf (2, 2) (2, 3))).isSome = true
    ∧ (resolve_boop blockBoardC7 (2, 2)).1.get_piece (2, 3)
        = some ⟨PieceType.kitten, Color.orange⟩ :=
  ⟨by decide, by decide, by decide, by decide, by decide,
    line_of_two_blocking blockBoardC7 (2, 2) (2, 3) ⟨PieceType.kitten, Color.gray⟩
      ⟨PieceType.kitten, Color.orange⟩ (by decide) (by decide) (by decide)
      (by decide) (by decide)⟩

/-- **C6 counterexample.**  Placing the gray kitten at (1,1) on
`cexBoardC6` satisfies the claim's hypotheses at the neighbour (1,0)
(pushable rank, off-board destination), yet the owner's pool count for
that rank rises by two, not exactly one: the same pass also knocks off
the orange kitten at (0,0). -/
theorem push_correctness_cex :
    (cexBoardC6.get_piece (1, 1) = some ⟨PieceType.kitten, Color.gray⟩
    ∧ ((1, 0) : Pos) ∈ get_all_adjacent (1, 1)
    ∧ cexBoardC6.get_piece (1, 0) = some ⟨PieceType.kitten, Color.orange⟩
    ∧ Piece.can_boop ⟨PieceType.kitten, Color.gray⟩ ⟨PieceType.kitten, Color.orange⟩ = true
    ∧ is_valid_position (destOf (1, 1) (1, 0)) = false
    ∧ (resolve_boop cexBoardC6 (1, 1)).1.get_piece (1, 0) = none)
    ∧ poolRankCount (pickPlayer ((resolve_boop cexBoardC6 (1, 1)).2.foldl returnBoopedStep plsC6)
        Color.orange) PieceType.kitten
      = poolRankCount (pickPlayer plsC6 Color.orange) PieceType.kitten + 2 := by
  decide

/-- **C6 (amended).**  The movement part of the claim holds: an adjacent
pushable piece with an empty on-board destination moves exactly one cell
further away.  When the destination is off-board the piece is removed
from the board and returned to its owner's pool, but the owner's pool
count for that rank rises by the number of matching pieces knocked off
in the whole pass — at least one, possibly more. -/
theorem push_correctness_amended (b : Board) (pos n : Pos) (placed target : Piece)
    (pls : Player × Player)
    (hpl1 : pls.1.color = Color.orange) (hpl2 : pls.2.color = Color.gray)
    (hplaced : b.get_piece pos = some placed)
    (hn : n ∈ get_all_adjacent pos)
    (htarget : b.get_piece n = some target)
    (hcb : placed.can_boop target = true) :
    (b.is_empty (destOf pos n) = true →
      (resolve_boop b pos).1.get_piece n = none
      ∧ (resolve_boop b pos).1.get_piece (destOf pos n) = some target)
    ∧ (is_valid_position (destOf pos n) = false →
      (resolve_boop b pos).1.get_piece n = none
      ∧ target ∈ (resolve_boop b pos).2
      ∧ poolRankCount (pickPlayer ((resolve_boop b pos).2.foldl returnBoopedStep pls)
            target.color) target.ptype
        = poolRankCount (pickPlayer pls target.color) target.ptype
          + (resolve_boop b pos).2.countP
              (fun p => p.color == target.color && p.ptype == target.ptype)
      ∧ 1 ≤ (resolve_boop b pos).2.countP
              (fun p => p.color == target.color && p.ptype == target.ptype)) := by
  have hvn : is_valid_position n = true := (mem_adjacent hn).1
  obtain ⟨hbooped, hcells⟩ := resolve_boop_spec b pos placed hplaced
  constructor
  · intro hemp
    have hva : is_valid_position (destOf pos n) = true
        ∧ (b (destOf pos n)).isNone = true := by
      unfold Board.is_empty at hemp
      rw [Bool.and_eq_true] at hemp
      exact hemp
    have hbl : is_blocked_by_line_of_two b n (calculate_push_direction pos n) = false := by
      unfold is_blocked_by_line_of_two
      have hd : ((n.1 + (calculate_push_direction pos n).1,
          n.2 + (calculate_push_direction pos n).2) : Pos) = destOf pos n := rfl
      rw [hd, if_pos hva.1, get_piece_valid b hva.1]
      cases hbd : b (destOf pos n) with
      | none => rfl
      | some q =>
        rw [hbd] at hva
        exact absurd hva.2 (by simp)
    have hout : stepOutcome placed b pos n = BoopOutcome.moveB := by
      rw [stepOutcome_eq placed target b pos n htarget]
      simp [hcb, hbl, hva.1, hemp]
    have h := (hcells n hn).2.1 hout
    constructor
    · rw [get_piece_valid _ hvn]
      exact h.1
    · rw [get_piece_valid _ hva.1, h.2, htarget]
  · intro hinv
    have hbl : is_blocked_by_line_of_two b n (calculate_push_direction pos n) = false := by
      unfold is_blocked_by_line_of_two
      have hd : ((n.1 + (calculate_push_direction pos n).1,
          n.2 + (calculate_push_direction pos n).2) : Pos) = destOf pos n := rfl
      rw [hd, hinv]
      simp
    have hout : stepOutcome placed b pos n = BoopOutcome.knockB := by
      rw [stepOutcome_eq placed target b pos n htarget]
      simp [hcb, hbl, hinv]
    have h := (hcells n hn).2.2 hout
    have hmem : target ∈ knockedPieces placed b pos := by
      unfold knockedPieces
      exact List.mem_filterMap.mpr ⟨n, hn, by rw [hout]; simpa using htarget⟩
    refine ⟨by rw [get_piece_valid _ hvn]; exact h, by rw [hbooped]; exact hmem, ?_, ?_⟩
    · exact returnBooped_pick (resolve_boop b pos).2 pls hpl1 hpl2 target.color target.ptype
    · rw [hbooped]
      have hpos : 0 < (knockedPieces placed b pos).countP
          (fun p => p.color == target.color && p.ptype == target.ptype) :=
        List.countP_pos.mpr ⟨target, hmem, by simp⟩
      omega

theorem push_correctness_amended_witness :
    (cexBoardC6.get_piece (1, 1) = some ⟨PieceType.kitten, Color.gray⟩
    ∧ ((1, 0) : Pos) ∈ get_all_adjacent (1, 1)
    ∧ cexBoardC6.get_piece (1, 0) = some ⟨PieceType.kitten, Color.orange⟩
    ∧ Piece.can_boop ⟨PieceType.kitten, Color.gray⟩ ⟨PieceType.kitten, Color.orange⟩ = true)
    ∧ ((cexBoardC6.is_empty (destOf (1, 1) (1, 0)) = true →
      (resolve_boop cexBoardC6 (1, 1)).1.get_piece (1, 0) = none
      ∧ (resolve_boop cexBoardC6 (1, 1)).1.get_piece (destOf (1, 1) (1, 0))
          = some ⟨PieceType.kitten, Color.orange⟩)
    ∧ (is_valid_position (destOf (1, 1) (1, 0)) = false →
      (resolve_boop cexBoardC6 (1, 1)).1.get_piece (1, 0) = none
      ∧ (⟨PieceType.kitten, Color.orange⟩ : Piece) ∈ (resolve_boop cexBoardC6 (1, 1)).2
      ∧ poolRankCount (pickPlayer ((resolve_boop cexBoardC6 (1, 1)).2.foldl returnBoopedStep
            plsC6) (⟨PieceType.kitten, Color.orange⟩ : Piece).color)
            (⟨PieceType.kitten, Color.orange⟩ : Piece).ptype
        = poolRankCount (pickPlayer plsC6 (⟨PieceType.kitten, Color.orange⟩ : Piece).color)
            (⟨PieceType.kitten, Color.orange⟩ : Piece).ptype
          + (resolve_boop cexBoardC6 (1, 1)).2.countP
              (fun p => p.color == (⟨PieceType.kitten, Color.orange⟩ : Piece).color
                && p.ptype == (⟨PieceType.kitten, Color.orange⟩ : Piece).ptype)
      ∧ 1 ≤ (resolve_boop cexBoardC6 (1, 1)).2.countP
              (fun p => p.color == (⟨PieceType.kitten, Color.orange⟩ : Piece).color
                && p.ptype == (⟨PieceType.kitten, Color.orange⟩ : Piece).ptype))) :=
  ⟨⟨by decide, by decide, by decide, by decide⟩,
    push_correctness_amended cexBoardC6 (1, 1) (1, 0) ⟨PieceType.kitten, Color.gray⟩
      ⟨PieceType.kitten, Color.orange⟩ plsC6 rfl rfl (by decide) (by decide)
      (by decide) (by decide)⟩

/-! ## Visit conservation of the MCTS search loop (C1) -/

theorem simulate_visit (sq : ℕ → ℚ) (pr : GameState → List ℚ × ℚ) (cp : ℚ)
    (s : GameState) (t : Tree) :
    ((simulate sq pr cp s t).1).visit = t.visit + 1 := by
  cases t with
  | node st a p vis vs e c =>
    rw [simulate]
    split
    · split
      · split
        · simp [Tree.bumpWith, Tree.visit]
        · simp [Tree.bump, Tree.visit]
      · simp [Tree.bump, Tree.visit]
    · split
      · simp [Tree.bump, Tree.visit]
      · dsimp only
        split
        · simp [Tree.bump, Tree.visit]
        · simp [Tree.bump, Tree.expandNode, Tree.visit]

theorem bestAux_lt (f : Tree → ℚ) :
    ∀ (l : List Tree) (i bi : ℕ) (bs : ℚ), bi < i → bestAux f l i bi bs < i + l.length := by
  intro l
  induction l with
  | nil =>
    intro i bi bs h
    simpa [bestAux] using h
  | cons c rest ih =>
    intro i bi bs h
    rw [bestAux]
    split
    · have := ih (i + 1) i (f c) (Nat.lt_succ_self i)
      simp only [List.length_cons]
      omega
    · have := ih (i + 1) bi bs (Nat.lt_succ_of_lt h)
      simp only [List.length_cons]
      omega

theorem bestChildIdx_lt (f : Tree → ℚ) (l : List Tree) (i : ℕ)
    (h : bestChildIdx f l = some i) : i < l.length := by
  cases l with
  | nil => simp [bestChildIdx] at h
  | cons c rest =>
    have hb := bestAux_lt f rest 1 0 (f c) Nat.zero_lt_one
    rw [bestChildIdx] at h
    have h2 : bestAux f rest 1 0 (f c) = i := Option.some_injective _ h
    simp only [List.length_cons]
    omega

theorem simulate_unexpanded (sq : ℕ → ℚ) (pr : GameState → List ℚ × ℚ) (cp : ℚ)
    (s : GameState) (st : Option GameState) (a : Option Action) (p : ℚ) (vis : ℕ) (vs : ℚ)
    (c : List Tree)
    (hterm : isTerminal s = false) (hacts : getValidActions s ≠ []) :
    (simulate sq pr cp s (.node st a p vis vs false c)).1
      = .node (some s) a p (vis + 1) (vs + (pr s).2) true
          ((getValidActions s).map (fun act => Tree.fresh none (some act) (priorOf (pr s).1 act))) := by
  rw [simulate]
  have h1 : ¬(false = true ∧ isTerminal s = false) := by simp
  rw [if_neg h1]
  rw [if_neg (by rw [hterm]; simp : ¬isTerminal s = true)]
  have h2 : (getValidActions s).isEmpty = false := by
    rw [List.isEmpty_eq_false]
    exact hacts
  dsimp only
  rw [h2]
  simp [Tree.expandNode, Tree.bump]

theorem simulate_expanded_step (sq : ℕ → ℚ) (pr : GameState → List ℚ × ℚ) (cp : ℚ)
    (s : GameState) (st : Option GameState) (a : Option Action) (p : ℚ) (vis : ℕ) (vs : ℚ)
    (c : List Tree) (hterm : isTerminal s = false) (hne : c ≠ []) :
    ∃ i, ∃ h : i < c.length, ∃ cs v,
      (simulate sq pr cp s (.node st a p vis vs true c)).1
        = .node (some s) a p (vis + 1) (vs + v) true
            (c.set i ((simulate sq pr cp cs (c.get ⟨i, h⟩)).1)) := by
  rw [simulate]
  rw [if_pos ⟨rfl, hterm⟩]
  cases c with
  | nil => exact absurd rfl hne
  | cons c0 rest =>
    dsimp only [Tree.visit, bestChildIdx]
    have hb2 : bestAux (ucbScore sq cp vis) rest 1 0 (ucbScore sq cp vis c0)
        < (c0 :: rest).length := by
      have := bestAux_lt (ucbScore sq cp vis) rest 1 0 (ucbScore sq cp vis c0) Nat.zero_lt_one
      simp only [List.length_cons]
      omega
    rw [dif_pos hb2]
    refine ⟨_, hb2, _, _, rfl⟩

theorem sum_map_set_visit : ∀ (l : List Tree) (i : ℕ) (x : Tree) (h : i < l.length),
    ((l.set i x).map Tree.visit).sum + (l.get ⟨i, h⟩).visit
      = (l.map Tree.visit).sum + x.visit := by
  intro l
  induction l with
  | nil =>
    intro i x h
    exact absurd h (by simp)
  | cons hd tl ih =>
    intro i x h
    cases i with
    | zero =>
      simp only [List.set, List.map_cons, List.sum_cons, List.get]
      omega
    | succ j =>
      have hj : j < tl.length := by simpa using h
      have := ih j x hj
      simp only [List.set, List.map_cons, List.sum_cons, List.get]
      omega

theorem searchLoop_invariant (sq : ℕ → ℚ) (pr : GameState → List ℚ × ℚ) (cp : ℚ)
    (s : GameState) (hterm : isTerminal s = false) (hacts : getValidActions s ≠ []) :
    ∀ n, 1 ≤ n →
      (searchLoop sq pr cp s n (freshRoot s)).expanded = true
      ∧ (searchLoop sq pr cp s n (freshRoot s)).children ≠ []
      ∧ (searchLoop sq pr cp s n (freshRoot s)).visit = n
      ∧ childVisitSum (searchLoop sq pr cp s n (freshRoot s)) + 1 = n := by
  intro n
  induction n with
  | zero =>
    intro h
    exact absurd h (by omega)
  | succ m ih =>
    intro _
    by_cases hm : 1 ≤ m
    · obtain ⟨he, hc, hv, hs⟩ := ih hm
      cases htm : searchLoop sq pr cp s m (freshRoot s) with
      | node st a p vis vs e c =>
        rw [htm] at he hc hv hs
        have he' : e = true := he
        subst he'
        have hc' : c ≠ [] := by
          intro hnil
          apply hc
          rw [hnil]
          rfl
        have hv' : vis = m := hv
        have hs' : (c.map Tree.visit).sum + 1 = m := hs
        obtain ⟨i, hlt, cs, v, heq⟩ := simulate_expanded_step sq pr cp s st a p vis vs c hterm hc'
        have hstep : searchLoop sq pr cp s (m + 1) (freshRoot s)
            = (simulate sq pr cp s (Tree.node st a p vis vs true c)).1 := by
          rw [searchLoop, htm]
        rw [hstep, heq]
        have hvisit := simulate_visit sq pr cp cs (c.get ⟨i, hlt⟩)
        have hsum := sum_map_set_visit c i ((simulate sq pr cp cs (c.get ⟨i, hlt⟩)).1) hlt
        refine ⟨rfl, ?_, ?_, ?_⟩
        · intro hnil
          have hnil' : c.set i ((simulate sq pr cp cs (c.get ⟨i, hlt⟩)).1) = [] := hnil
          have hlen : (c.set i ((simulate sq pr cp cs (c.get ⟨i, hlt⟩)).1)).length = c.length :=
            List.length_set c i _
          rw [hnil'] at hlen
          have hpos : 0 < c.length := List.length_pos.mpr hc'
          simp at hlen
          omega
        · show vis + 1 = m + 1
          omega
        · show ((c.set i ((simulate sq pr cp cs (c.get ⟨i, hlt⟩)).1)).map Tree.visit).sum + 1
            = m + 1
          omega
    · have hm0 : m = 0 := by omega
      subst hm0
      have h0 : searchLoop sq pr cp s 1 (freshRoot s)
          = (simulate sq pr cp s (Tree.node (some s) none 0 0 0 false [])).1 := rfl
      rw [h0, simulate_unexpanded sq pr cp s (some s) none 0 0 0 [] hterm hacts]
      refine ⟨rfl, ?_, rfl, ?_⟩
      · intro hnil
        have hnil' : (getValidActions s).map
            (fun act => Tree.fresh none (some act) (priorOf (pr s).1 act)) = [] := hnil
        rw [List.map_eq_nil] at hnil'
        exact hacts hnil' 
      · show (((getValidActions s).map
            (fun act => Tree.fresh none (some act) (priorOf (pr s).1 act))).map Tree.visit).sum
            + 1 = 1
        have hz : (((getValidActions s).map
            (fun act => Tree.fresh none (some act) (priorOf (pr s).1 act))).map Tree.visit).sum
            = 0 := by
          apply List.sum_eq_zero
          intro x hx
          simp only [List.map_map, List.mem_map, Function.comp] at hx
          obtain ⟨act, _, hact⟩ := hx
          rw [← hact]
          rfl
        omega

/-- **C1 counterexample.**  With a simulation budget of N = 1 from the
initial state, the first simulation only expands the root (no child is
descended into), so the root's children's visit counts sum to 0, not 1. -/
theorem visit_conservation_cex :
    isTerminal GameState.init = false
    ∧ getValidActions GameState.init ≠ []
    ∧ childVisitSum (searchLoop sq0 pr0 (3 / 2) GameState.init 1
        (freshRoot GameState.init)) ≠ 1 := by
  refine ⟨by decide, by decide, ?_⟩
  have h := searchLoop_invariant sq0 pr0 (3 / 2) GameState.init (by decide) (by decide)
    1 (by decide)
  have h4 := h.2.2.2
  omega

/-- **C1 (amended).**  For every starting state that is not terminal and
has at least one valid action, and every simulation budget N ≥ 1, after
the N simulations of `MCTS.search` the sum of the visit counts over the
root's direct children equals N − 1: the first simulation stops at the
fresh root, expanding it without visiting any child, and each of the
remaining N − 1 simulations adds exactly one visit to exactly one direct
child. -/
theorem visit_conservation_amended (sq : ℕ → ℚ) (pr : GameState → List ℚ × ℚ) (cp : ℚ)
    (s : GameState) (n : ℕ) (h1 : 1 ≤ n)
    (hterm : isTerminal s = false) (hacts : getValidActions s ≠ []) :
    childVisitSum (searchLoop sq pr cp s n (freshRoot s)) + 1 = n :=
  (searchLoop_invariant sq pr cp s hterm hacts n h1).2.2.2

/-- Witness for the amended C1 at N = 3 from the initial state. -/
theorem visit_conservation_amended_witness :
    1 ≤ 3
    ∧ isTerminal GameState.init = false
    ∧ getValidActions GameState.init ≠ []
    ∧ childVisitSum (searchLoop sq0 pr0 (3 / 2) GameState.init 3
        (freshRoot GameState.init)) + 1 = 3 :=
  ⟨by decide, by decide, by decide,
    visit_conservation_amended sq0 pr0 (3 / 2) GameState.init 3
      (by decide) (by decide) (by decide)⟩

/-! ## The action fallback of get_best_action (C3) -/

theorem sum_set_rat : ∀ (l : List ℚ) (i : ℕ) (x : ℚ) (h : i < l.length),
    (l.set i x).sum + l.get ⟨i, h⟩ = l.sum + x := by
  intro l
  induction l with
  | nil =>
    intro i x h
    exact absurd h (by simp)
  | cons hd tl ih =>
    intro i x h
    cases i with
    | zero =>
      simp only [List.set, List.sum_cons, List.get]
      ring
    | succ j =>
      have hj : j < tl.length := by simpa using h
      have := ih j x hj
      simp only [List.set, List.sum_cons, List.get]
      linarith

theorem sum_map_div_rat (l : List ℚ) (c : ℚ) :
    (l.map (fun q => q / c)).sum = l.sum / c := by
  induction l with
  | nil => simp
  | cons hd tl ih => simp [ih, add_div]

theorem getD_set_ne_rat : ∀ (l : List ℚ) (i j : ℕ) (x : ℚ), i ≠ j →
    (l.set i x).getD j 0 = l.getD j 0 := by
  intro l
  induction l with
  | nil =>
    intro i j x _
    rfl
  | cons hd tl ih =>
    intro i j x hij
    cases i with
    | zero =>
      cases j with
      | zero => exact absurd rfl hij
      | succ j2 => rfl
    | succ i2 =>
      cases j with
      | zero => rfl
      | succ j2 =>
        have : i2 ≠ j2 := fun h => hij (by rw [h])
        simp only [List.set, List.getD_cons_succ]
        exact ih i2 j2 x this

theorem getD_set_self_rat : ∀ (l : List ℚ) (i : ℕ) (x : ℚ), i < l.length →
    (l.set i x).getD i 0 = x := by
  intro l
  induction l with
  | nil =>
    intro i x h
    exact absurd h (by simp)
  | cons hd tl ih =>
    intro i x h
    cases i with
    | zero => rfl
    | succ j =>
      have hj : j < tl.length := by simpa using h
      simp only [List.set, List.getD_cons_succ]
      exact ih j x hj

theorem sum_set_getD_rat : ∀ (l : List ℚ) (i : ℕ) (x : ℚ), i < l.length →
    (l.set i x).sum = l.sum + x - l.getD i 0 := by
  intro l
  induction l with
  | nil =>
    intro i x h
    exact absurd h (by simp)
  | cons hd tl ih =>
    intro i x h
    cases i with
    | zero =>
      simp only [List.set, List.sum_cons, List.getD_cons_zero]
      ring
    | succ j =>
      have hj : j < tl.length := by simpa using h
      simp only [List.set, List.sum_cons, List.getD_cons_succ]
      rw [ih j x hj]
      ring

theorem getD_replicate_zero : ∀ (n i : ℕ), ((List.replicate n (0 : ℚ)).getD i 0) = 0 := by
  intro n
  induction n with
  | zero => intro i; rfl
  | succ m ih =>
    intro i
    cases i with
    | zero => rfl
    | succ j => exact ih j

theorem sum_nonpos_rat : ∀ (l : List ℚ), (∀ x ∈ l, x ≤ 0) → l.sum ≤ 0 := by
  intro l
  induction l with
  | nil =>
    intro _
    simp
  | cons hd tl ih =>
    intro hno
    rw [List.sum_cons]
    have h1 := hno hd (List.mem_cons_self hd tl)
    have h2 := ih (fun x hx => hno x (List.mem_cons_of_mem hd hx))
    linarith

theorem exists_pos_of_sum_pos_rat (l : List ℚ) (h : 0 < l.sum) : ∃ x ∈ l, 0 < x := by
  by_contra hno
  push_neg at hno
  have := sum_nonpos_rat l hno
  linarith

theorem maskFold_facts : ∀ (acts : List Action) (acc : List ℚ), (∀ x ∈ acc, 0 ≤ x) →
    (acts.foldl (fun acc a => acc.set (encode_action a.1 a.2.1 a.2.2).toNat 1) acc).length
        = acc.length
    ∧ ∀ x ∈ acts.foldl (fun acc a => acc.set (encode_action a.1 a.2.1 a.2.2).toNat 1) acc,
        0 ≤ x := by
  intro acts
  induction acts with
  | nil =>
    intro acc h
    exact ⟨rfl, h⟩
  | cons a rest ih =>
    intro acc h
    have hstep : ∀ x ∈ acc.set (encode_action a.1 a.2.1 a.2.2).toNat 1, (0 : ℚ) ≤ x := by
      intro x hx
      rcases List.mem_or_eq_of_mem_set hx with h1 | h1
      · exact h x h1
      · rw [h1]
        norm_num
    obtain ⟨hl, hn⟩ := ih (acc.set (encode_action a.1 a.2.1 a.2.2).toNat 1) hstep
    rw [List.foldl_cons]
    exact ⟨by rw [hl, List.length_set], hn⟩

theorem mask_sum_pos_aux (m : List ℚ) (hlen : m.length = 108) (hnn : ∀ x ∈ m, 0 ≤ x) :
    0 < (if m.sum = 0 then m.set 72 1 else m).sum := by
  by_cases h : m.sum = 0
  · rw [if_pos h]
    have h72 : 72 < m.length := by omega
    have hset := sum_set_rat m 72 1 h72
    have hmem : m.get ⟨72, h72⟩ ∈ m := List.get_mem m 72 h72
    have h1 : 0 ≤ m.get ⟨72, h72⟩ := hnn _ hmem
    have h2 : m.get ⟨72, h72⟩ ≤ m.sum := List.single_le_sum hnn _ hmem
    rw [h] at h2
    have hz : m.get ⟨72, h72⟩ = 0 := le_antisymm h2 h1
    rw [h, hz] at hset
    linarith
  · rw [if_neg h]
    have : 0 ≤ m.sum := List.sum_nonneg hnn
    exact lt_of_le_of_ne this (Ne.symm h)

theorem zeros108_nonneg : ∀ x ∈ zeros108, (0 : ℚ) ≤ x := by
  intro x hx
  have := List.eq_of_mem_replicate hx
  rw [this]

theorem mask_sum_pos (s : GameState) : 0 < (get_valid_actions_mask s).sum := by
  obtain ⟨hlen, hnn⟩ := maskFold_facts (get_valid_moves s) zeros108 zeros108_nonneg
  have h := mask_sum_pos_aux
    ((get_valid_moves s).foldl (fun acc a => acc.set (encode_action a.1 a.2.1 a.2.2).toNat 1)
      zeros108)
    (by rw [hlen]; rfl) hnn
  unfold get_valid_actions_mask
  exact h

theorem simulate_stateOpt (sq : ℕ → ℚ) (pr : GameState → List ℚ × ℚ) (cp : ℚ)
    (s : GameState) (t : Tree) :
    ((simulate sq pr cp s t).1).stateOpt = some s := by
  cases t with
  | node st a p vis vs e c =>
    rw [simulate]
    split
    · split
      · split
        · simp [Tree.bumpWith, Tree.stateOpt]
        · simp [Tree.bump, Tree.stateOpt]
      · simp [Tree.bump, Tree.stateOpt]
    · split
      · simp [Tree.bump, Tree.stateOpt]
      · dsimp only
        split
        · simp [Tree.bump, Tree.stateOpt]
        · simp [Tree.bump, Tree.expandNode, Tree.stateOpt]

theorem simulate_action (sq : ℕ → ℚ) (pr : GameState → List ℚ × ℚ) (cp : ℚ)
    (s : GameState) (t : Tree) :
    ((simulate sq pr cp s t).1).action = t.action := by
  cases t with
  | node st a p vis vs e c =>
    rw [simulate]
    split
    · split
      · split
        · simp [Tree.bumpWith, Tree.action]
        · simp [Tree.bump, Tree.action]
      · simp [Tree.bump, Tree.action]
    · split
      · simp [Tree.bump, Tree.action]
      · dsimp only
        split
        · simp [Tree.bump, Tree.action]
        · simp [Tree.bump, Tree.expandNode, Tree.action]

theorem map_action_set : ∀ (l : List Tree) (i : ℕ) (x : Tree) (h : i < l.length),
    x.action = (l.get ⟨i, h⟩).action → (l.set i x).map Tree.action = l.map Tree.action := by
  intro l
  induction l with
  | nil =>
    intro i x h
    exact absurd h (by simp)
  | cons hd tl ih =>
    intro i x h hx
    cases i with
    | zero =>
      simp only [List.set, List.map_cons, List.get] at hx ⊢
      rw [hx]
    | succ j =>
      have hj : j < tl.length := by simpa using h
      simp only [List.set, List.map_cons, List.get] at hx ⊢
      rw [ih j x hj hx]

theorem simulate_children_action (sq : ℕ → ℚ) (pr : GameState → List ℚ × ℚ) (cp : ℚ)
    (s : GameState) (t : Tree) :
    ((simulate sq pr cp s t).1).children.map Tree.action = t.children.map Tree.action
    ∨ ((simulate sq pr cp s t).1).children.map Tree.action = (getValidActions s).map some := by
  cases t with
  | node st a p vis vs e c =>
    rw [simulate]
    split
    · split
      · split
        · left
          show (c.set _ _).map Tree.action = c.map Tree.action
          apply map_action_set
          exact simulate_action sq pr cp _ _
        · left
          simp [Tree.bump, Tree.children]
      · left
        simp [Tree.bump, Tree.children]
    · split
      · left
        simp [Tree.bump, Tree.children]
      · dsimp only
        split
        · left
          simp [Tree.bump, Tree.children]
        · right
          show ((getValidActions s).map
            (fun act => Tree.fresh none (some act) (priorOf (pr s).1 act))).map Tree.action = _
          rw [List.map_map]
          rfl

theorem searchLoop_stateOpt (sq : ℕ → ℚ) (pr : GameState → List ℚ × ℚ) (cp : ℚ)
    (s : GameState) : ∀ n, (searchLoop sq pr cp s n (freshRoot s)).stateOpt = some s := by
  intro n
  cases n with
  | zero => rfl
  | succ m => exact simulate_stateOpt sq pr cp s _

theorem searchLoop_children_inv (sq : ℕ → ℚ) (pr : GameState → List ℚ × ℚ) (cp : ℚ)
    (s : GameState) :
    ∀ n, (searchLoop sq pr cp s n (freshRoot s)).children.map Tree.action = []
      ∨ (searchLoop sq pr cp s n (freshRoot s)).children.map Tree.action
          = (getValidActions s).map some := by
  intro n
  induction n with
  | zero =>
    left
    rfl
  | succ m ih =>
    have hstep : searchLoop sq pr cp s (m + 1) (freshRoot s)
        = (simulate sq pr cp s (searchLoop sq pr cp s m (freshRoot s))).1 := rfl
    rw [hstep]
    rcases simulate_children_action sq pr cp s (searchLoop sq pr cp s m (freshRoot s)) with h | h
    · rw [h]
      exact ih
    · right
      exact h

theorem mem_posActions (y : Pos) (hK hC : Bool) (z : Action)
    (hz : z ∈ (if hK = true then [(y.1, y.2, PieceType.kitten)] else [])
      ++ (if hC = true then [(y.1, y.2, PieceType.cat)] else [])) :
    z.1 = y.1 ∧ z.2.1 = y.2 := by
  rcases List.mem_append.mp hz with h | h
  · split at h
    · rw [List.mem_singleton] at h
      subst h
      exact ⟨rfl, rfl⟩
    · cases h
  · split at h
    · rw [List.mem_singleton] at h
      subst h
      exact ⟨rfl, rfl⟩
    · cases h

theorem getValidActions_shape (s : GameState) :
    ∀ a ∈ getValidActions s, 0 ≤ a.1 ∧ a.1 < 6 ∧ 0 ≤ a.2.1 ∧ a.2.1 < 6 := by
  intro a ha
  unfold getValidActions get_valid_moves at ha
  dsimp only at ha
  rw [List.mem_flatten] at ha
  obtain ⟨l, hl, hal⟩ := ha
  rw [List.mem_map] at hl
  obtain ⟨p, hp, hpl⟩ := hl
  unfold GameState.get_empty_positions at hp
  have hpe : s.board.is_empty p = true := (List.mem_filter.mp hp).2
  have hpv : is_valid_position p = true := by
    unfold Board.is_empty at hpe
    rw [Bool.and_eq_true] at hpe
    exact hpe.1
  have hbounds : 0 ≤ p.1 ∧ p.1 < 6 ∧ 0 ≤ p.2 ∧ p.2 < 6 := by
    unfold is_valid_position at hpv
    simp only [Bool.and_eq_true, decide_eq_true_eq] at hpv
    exact ⟨hpv.1.1.1, hpv.1.1.2, hpv.1.2, hpv.2⟩
  subst hpl
  have hsh := mem_posActions p _ _ a hal
  rw [hsh.1, hsh.2]
  exact hbounds

theorem get_empty_positions_nodup (s : GameState) : s.get_empty_positions.Nodup :=
  List.Nodup.filter _ boardCellList_nodup

theorem getValidActions_nodup (s : GameState) : (getValidActions s).Nodup := by
  unfold getValidActions get_valid_moves
  dsimp only
  rw [List.nodup_flatten]
  constructor
  · intro l hl
    rw [List.mem_map] at hl
    obtain ⟨p, _, hpl⟩ := hl
    subst hpl
    split <;> split
    · simp
    · exact List.nodup_singleton _
    · exact List.nodup_singleton _
    · exact List.nodup_nil
  · refine List.Pairwise.map _ ?_ (get_empty_positions_nodup s)
    intro p q hpq
    intro x hxp hxq
    have h1 := mem_posActions p _ _ x hxp
    have h2 := mem_posActions q _ _ x hxq
    apply hpq
    rw [Prod.ext_iff]
    exact ⟨h1.1 ▸ h2.1, h1.2 ▸ h2.2⟩

theorem encode_valid_bounds (a : Action)
    (h : 0 ≤ a.1 ∧ a.1 < 6 ∧ 0 ≤ a.2.1 ∧ a.2.1 < 6) :
    0 ≤ encode_action a.1 a.2.1 a.2.2 ∧ encode_action a.1 a.2.1 a.2.2 < 72 := by
  obtain ⟨h1, h2, h3, h4⟩ := h
  unfold encode_action
  split <;> omega

theorem encode_inj (a b : Action)
    (ha : 0 ≤ a.1 ∧ a.1 < 6 ∧ 0 ≤ a.2.1 ∧ a.2.1 < 6)
    (hb : 0 ≤ b.1 ∧ b.1 < 6 ∧ 0 ≤ b.2.1 ∧ b.2.1 < 6)
    (he : encode_action a.1 a.2.1 a.2.2 = encode_action b.1 b.2.1 b.2.2) : a = b := by
  obtain ⟨ar, ac, aty⟩ := a
  obtain ⟨br, bc, bty⟩ := b
  dsimp only at ha hb he ⊢
  unfold encode_action at he
  cases aty <;> cases bty
  · simp only [Prod.mk.injEq]
    simp at he
    refine ⟨by omega, by omega, trivial⟩
  · exfalso
    simp at he
    omega
  · exfalso
    simp at he
    omega
  · simp only [Prod.mk.injEq]
    simp at he
    refine ⟨by omega, by omega, trivial⟩

theorem getValidActions_encNodup (s : GameState) :
    ((getValidActions s).map (fun a => (encode_action a.1 a.2.1 a.2.2).toNat)).Nodup := by
  apply List.Nodup.map_on
  · intro a ha b hb he
    have hA := getValidActions_shape s a ha
    have hB := getValidActions_shape s b hb
    apply encode_inj a b hA hB
    have h1 := (encode_valid_bounds a hA).1
    have h2 := (encode_valid_bounds b hB).1
    omega
  · exact getValidActions_nodup s

theorem getValidActions_encLt (s : GameState) :
    ∀ a ∈ getValidActions s, (encode_action a.1 a.2.1 a.2.2).toNat < 108 := by
  intro a ha
  have h := encode_valid_bounds a (getValidActions_shape s a ha)
  omega

theorem assignProbs_eq (t : Tree) (temp : ℚ) :
    assignProbs t temp = t.children.foldl (assignStep t temp) zeros108 := rfl

theorem zeros108_sum : (zeros108 : List ℚ).sum = 0 := by
  unfold zeros108
  simp

theorem sum_map_cast_visit : ∀ (cs : List Tree),
    (cs.map (fun c => ((Tree.visit c : ℕ) : ℚ))).sum = (((cs.map Tree.visit).sum : ℕ) : ℚ) := by
  intro cs
  induction cs with
  | nil => simp
  | cons c cs2 ih =>
    simp only [List.map_cons, List.sum_cons, ih]
    push_cast
    ring

theorem sum_map_ite_visit (q : ℚ) (maxV : ℕ) : ∀ (cs : List Tree),
    (cs.map (fun c => if c.visit = maxV then q else 0)).sum
      = ((cs.countP (fun c => c.visit == maxV) : ℕ) : ℚ) * q := by
  intro cs
  induction cs with
  | nil => simp
  | cons c cs2 ih =>
    simp only [List.map_cons, List.sum_cons, List.countP_cons, ih]
    by_cases h : c.visit = maxV
    · simp only [h, if_true, beq_self_eq_true]
      push_cast
      ring
    · have hb : (c.visit == maxV) = false := by
        rw [beq_eq_false_iff_ne]
        exact h
      simp only [h, if_false, hb]
      push_cast
      ring

theorem foldr_max_mem : ∀ (l : List ℕ), l ≠ [] → l.foldr max 0 ∈ l := by
  intro l
  induction l with
  | nil =>
    intro h
    exact absurd rfl h
  | cons x tl ih =>
    intro _
    cases tl with
    | nil =>
      simp only [List.foldr_cons, List.foldr_nil]
      rw [Nat.max_zero]
      exact List.mem_singleton_self x
    | cons y tl2 =>
      rcases max_choice x ((y :: tl2).foldr max 0) with h | h
      · rw [List.foldr_cons, h]
        exact List.mem_cons_self _ _
      · rw [List.foldr_cons, h]
        exact List.mem_cons_of_mem _ (ih (by simp))

theorem assignFold_ne (t : Tree) (temp : ℚ) (htemp : ¬temp = 0) :
    ∀ (cs : List Tree) (acts : List Action) (acc : List ℚ),
    cs.map Tree.action = acts.map some →
    (acts.map (fun a => (encode_action a.1 a.2.1 a.2.2).toNat)).Nodup →
    (∀ a ∈ acts, (encode_action a.1 a.2.1 a.2.2).toNat < 108) →
    acc.length = 108 →
    (∀ x ∈ acc, 0 ≤ x) →
    (∀ a ∈ acts, acc.getD (encode_action a.1 a.2.1 a.2.2).toNat 0 = 0) →
    (cs.foldl (assignStep t temp) acc).sum
        = acc.sum + (cs.map (fun c => ((Tree.visit c : ℕ) : ℚ))).sum
    ∧ ∀ x ∈ cs.foldl (assignStep t temp) acc, 0 ≤ x := by
  intro cs
  induction cs with
  | nil =>
    intro acts acc _ _ _ _ hnn _
    exact ⟨by simp, hnn⟩
  | cons c cs2 ih =>
    intro acts acc hmap hnd hlt hlen hnn hzero
    cases acts with
    | nil => simp at hmap
    | cons a acts2 =>
      simp only [List.map_cons, List.cons.injEq] at hmap
      obtain ⟨hca, hmap2⟩ := hmap
      have hstep : assignStep t temp acc c
          = acc.set (encode_action a.1 a.2.1 a.2.2).toNat ((c.visit : ℕ) : ℚ) := by
        unfold assignStep
        rw [hca]
        dsimp only
        rw [if_neg htemp]
      have hia : (encode_action a.1 a.2.1 a.2.2).toNat < acc.length := by
        rw [hlen]
        exact hlt a (List.mem_cons_self a acts2)
      have hnd2 : (acts2.map (fun a => (encode_action a.1 a.2.1 a.2.2).toNat)).Nodup :=
        (List.nodup_cons.mp (by simpa using hnd)).2
      have hheadnotin : (encode_action a.1 a.2.1 a.2.2).toNat
          ∉ acts2.map (fun a => (encode_action a.1 a.2.1 a.2.2).toNat) :=
        (List.nodup_cons.mp (by simpa using hnd)).1
      have hlt2 : ∀ a2 ∈ acts2, (encode_action a2.1 a2.2.1 a2.2.2).toNat < 108 :=
        fun a2 h2 => hlt a2 (List.mem_cons_of_mem a h2)
      have hlen2 : (acc.set (encode_action a.1 a.2.1 a.2.2).toNat ((c.visit : ℕ) : ℚ)).length
          = 108 := by
        rw [List.length_set]
        exact hlen
      have hnn2 : ∀ x ∈ acc.set (encode_action a.1 a.2.1 a.2.2).toNat ((c.visit : ℕ) : ℚ),
          0 ≤ x := by
        intro x hx
        rcases List.mem_or_eq_of_mem_set hx with h2 | h2
        · exact hnn x h2
        · rw [h2]
          exact_mod_cast Nat.zero_le _
      have hzero2 : ∀ a2 ∈ acts2,
          (acc.set (encode_action a.1 a.2.1 a.2.2).toNat ((c.visit : ℕ) : ℚ)).getD
            (encode_action a2.1 a2.2.1 a2.2.2).toNat 0 = 0 := by
        intro a2 h2
        have hne2 : (encode_action a.1 a.2.1 a.2.2).toNat
            ≠ (encode_action a2.1 a2.2.1 a2.2.2).toNat := by
          intro heq
          apply hheadnotin
          rw [heq]
          exact List.mem_map_of_mem _ h2
        rw [getD_set_ne_rat acc _ _ _ hne2]
        exact hzero a2 (List.mem_cons_of_mem a h2)
      obtain ⟨ihsum, ihnn⟩ := ih acts2
        (acc.set (encode_action a.1 a.2.1 a.2.2).toNat ((c.visit : ℕ) : ℚ))
        hmap2 hnd2 hlt2 hlen2 hnn2 hzero2
      rw [List.foldl_cons, hstep]
      constructor
      · rw [ihsum, sum_set_getD_rat acc _ _ hia,
          hzero a (List.mem_cons_self a acts2)]
        simp only [List.map_cons, List.sum_cons]
        ring
      · exact ihnn

theorem assignFold_zero (t : Tree) :
    ∀ (cs : List Tree) (acts : List Action) (acc : List ℚ),
    cs.map Tree.action = acts.map some →
    (acts.map (fun a => (encode_action a.1 a.2.1 a.2.2).toNat)).Nodup →
    (∀ a ∈ acts, (encode_action a.1 a.2.1 a.2.2).toNat < 108) →
    acc.length = 108 →
    (∀ x ∈ acc, 0 ≤ x) →
    (∀ a ∈ acts, acc.getD (encode_action a.1 a.2.1 a.2.2).toNat 0 = 0) →
    (cs.foldl (assignStep t 0) acc).sum
        = acc.sum + (cs.map (fun c =>
            if c.visit = (t.children.map Tree.visit).foldr max 0
            then 1 / (((t.children.map Tree.visit).count
                ((t.children.map Tree.visit).foldr max 0) : ℕ) : ℚ)
            else 0)).sum := by
  intro cs
  induction cs with
  | nil =>
    intro acts acc _ _ _ _ _ _
    simp
  | cons c cs2 ih =>
    intro acts acc hmap hnd hlt hlen hnn hzero
    cases acts with
    | nil => simp at hmap
    | cons a acts2 =>
      simp only [List.map_cons, List.cons.injEq] at hmap
      obtain ⟨hca, hmap2⟩ := hmap
      have hnd2 : (acts2.map (fun a => (encode_action a.1 a.2.1 a.2.2).toNat)).Nodup :=
        (List.nodup_cons.mp (by simpa using hnd)).2
      have hheadnotin : (encode_action a.1 a.2.1 a.2.2).toNat
          ∉ acts2.map (fun a => (encode_action a.1 a.2.1 a.2.2).toNat) :=
        (List.nodup_cons.mp (by simpa using hnd)).1
      have hlt2 : ∀ a2 ∈ acts2, (encode_action a2.1 a2.2.1 a2.2.2).toNat < 108 :=
        fun a2 h2 => hlt a2 (List.mem_cons_of_mem a h2)
      have hia : (encode_action a.1 a.2.1 a.2.2).toNat < acc.length := by
        rw [hlen]
        exact hlt a (List.mem_cons_self a acts2)
      by_cases hv : c.visit = (t.children.map Tree.visit).foldr max 0
      · have hstep : assignStep t 0 acc c
            = acc.set (encode_action a.1 a.2.1 a.2.2).toNat
              (1 / (((t.children.map Tree.visit).count
                ((t.children.map Tree.visit).foldr max 0) : ℕ) : ℚ)) := by
          unfold assignStep
          rw [hca]
          dsimp only
          rw [if_pos rfl, if_pos hv]
        have hq : (0:ℚ) ≤ 1 / (((t.children.map Tree.visit).count
            ((t.children.map Tree.visit).foldr max 0) : ℕ) : ℚ) := by
          apply div_nonneg
          · norm_num
          · exact_mod_cast Nat.zero_le _
        have hlen2 : (acc.set (encode_action a.1 a.2.1 a.2.2).toNat
            (1 / (((t.children.map Tree.visit).count
              ((t.children.map Tree.visit).foldr max 0) : ℕ) : ℚ))).length = 108 := by
          rw [List.length_set]
          exact hlen
        have hnn2 : ∀ x ∈ acc.set (encode_action a.1 a.2.1 a.2.2).toNat
            (1 / (((t.children.map Tree.visit).count
              ((t.children.map Tree.visit).foldr max 0) : ℕ) : ℚ)), 0 ≤ x := by
          intro x hx
          rcases List.mem_or_eq_of_mem_set hx with h2 | h2
          · exact hnn x h2
          · rw [h2]
            exact hq
        have hzero2 : ∀ a2 ∈ acts2,
            (acc.set (encode_action a.1 a.2.1 a.2.2).toNat
              (1 / (((t.children.map Tree.visit).count
                ((t.children.map Tree.visit).foldr max 0) : ℕ) : ℚ))).getD
              (encode_action a2.1 a2.2.1 a2.2.2).toNat 0 = 0 := by
          intro a2 h2
          have hne2 : (encode_action a.1 a.2.1 a.2.2).toNat
              ≠ (encode_action a2.1 a2.2.1 a2.2.2).toNat := by
            intro heq
            apply hheadnotin
            rw [heq]
            exact List.mem_map_of_mem _ h2
          rw [getD_set_ne_rat acc _ _ _ hne2]
          exact hzero a2 (List.mem_cons_of_mem a h2)
        have ihsum := ih acts2 (acc.set (encode_action a.1 a.2.1 a.2.2).toNat
            (1 / (((t.children.map Tree.visit).count
              ((t.children.map Tree.visit).foldr max 0) : ℕ) : ℚ)))
          hmap2 hnd2 hlt2 hlen2 hnn2 hzero2
        rw [List.foldl_cons, hstep, ihsum, sum_set_getD_rat acc _ _ hia,
          hzero a (List.mem_cons_self a acts2)]
        simp only [List.map_cons, List.sum_cons, hv, if_true]
        ring
      · have hstep : assignStep t 0 acc c = acc := by
          unfold assignStep
          rw [hca]
          dsimp only
          rw [if_pos rfl, if_neg hv]
        have hzero2 : ∀ a2 ∈ acts2,
            acc.getD (encode_action a2.1 a2.2.1 a2.2.2).toNat 0 = 0 :=
          fun a2 h2 => hzero a2 (List.mem_cons_of_mem a h2)
        have ihsum := ih acts2 acc hmap2 hnd2 hlt2 hlen hnn hzero2
        rw [List.foldl_cons, hstep, ihsum]
        simp only [List.map_cons, List.sum_cons, hv, if_false]
        ring

theorem assignProbs_sum_ne (t : Tree) (temp : ℚ) (htemp : ¬temp = 0) (s : GameState)
    (hch : t.children.map Tree.action = (getValidActions s).map some) :
    (assignProbs t temp).sum = ((childVisitSum t : ℕ) : ℚ)
    ∧ ∀ x ∈ assignProbs t temp, 0 ≤ x := by
  rw [assignProbs_eq]
  obtain ⟨h1, h2⟩ := assignFold_ne t temp htemp t.children (getValidActions s) zeros108
    hch (getValidActions_encNodup s) (getValidActions_encLt s) rfl zeros108_nonneg
    (fun a _ => getD_replicate_zero 108 _)
  refine ⟨?_, h2⟩
  rw [h1, zeros108_sum, zero_add, sum_map_cast_visit]
  rfl

theorem assignProbs_sum_zero (t : Tree) (s : GameState)
    (hch : t.children.map Tree.action = (getValidActions s).map some)
    (hne : t.children ≠ []) :
    (assignProbs t 0).sum = 1 := by
  rw [assignProbs_eq]
  have h1 := assignFold_zero t t.children (getValidActions s) zeros108
    hch (getValidActions_encNodup s) (getValidActions_encLt s) rfl zeros108_nonneg
    (fun a _ => getD_replicate_zero 108 _)
  rw [h1, zeros108_sum, zero_add, sum_map_ite_visit]
  have hmem : (t.children.map Tree.visit).foldr max 0 ∈ t.children.map Tree.visit :=
    foldr_max_mem _ (by
      intro h
      exact hne (List.map_eq_nil.mp h))
  have hcnt : 0 < (t.children.map Tree.visit).count
      ((t.children.map Tree.visit).foldr max 0) := List.count_pos_iff.mpr hmem
  have hcntP : (t.children.map Tree.visit).count ((t.children.map Tree.visit).foldr max 0)
      = t.children.countP (fun c => c.visit == (t.children.map Tree.visit).foldr max 0) := by
    rw [List.count, List.countP_map]
    rfl
  rw [← hcntP, mul_one_div, div_self]
  have : (0:ℚ) < (((t.children.map Tree.visit).count
      ((t.children.map Tree.visit).foldr max 0) : ℕ) : ℚ) := by
    exact_mod_cast hcnt
  linarith

theorem get_action_probs_sum (powQ : ℚ → ℚ → ℚ)
    (hpow : ∀ q e, 0 ≤ q → 0 ≤ powQ q e)
    (hpow2 : ∀ q e, 0 < q → 0 < powQ q e)
    (t : Tree) (temp : ℚ) (s : GameState)
    (hstate : t.stateOpt = some s)
    (hch : t.children.map Tree.action = []
         ∨ t.children.map Tree.action = (getValidActions s).map some) :
    (get_action_probs powQ t temp).sum = 1 := by
  unfold get_action_probs
  by_cases hcv : childVisitSum t = 0
  · rw [if_pos hcv, hstate]
    dsimp only
    rw [if_pos (mask_sum_pos s), sum_map_div_rat]
    exact div_self (ne_of_gt (mask_sum_pos s))
  · rw [if_neg hcv]
    have hchne : t.children ≠ [] := by
      intro h
      apply hcv
      unfold childVisitSum
      rw [h]
      rfl
    have hch2 : t.children.map Tree.action = (getValidActions s).map some := by
      rcases hch with h | h
      · exact absurd (List.map_eq_nil.mp h) hchne
      · exact h
    dsimp only
    by_cases htemp : temp = 0
    · subst htemp
      rw [if_neg (by simp)]
      exact assignProbs_sum_zero t s hch2 hchne
    · obtain ⟨hsum, hnn⟩ := assignProbs_sum_ne t temp htemp s hch2
      have hpos : 0 < (assignProbs t temp).sum := by
        rw [hsum]
        have h0 : (0:ℕ) < childVisitSum t := Nat.pos_of_ne_zero hcv
        exact_mod_cast h0
      rw [if_pos ⟨htemp, hpos⟩]
      by_cases h1 : temp = 1
      · rw [if_neg (by simp [h1]), sum_map_div_rat]
        exact div_self (ne_of_gt hpos)
      · rw [if_pos h1, sum_map_div_rat]
        have hnn2 : ∀ x ∈ (assignProbs t temp).map (fun q => powQ q (1 / temp)), 0 ≤ x := by
          intro x hx
          rw [List.mem_map] at hx
          obtain ⟨y, hy, hxy⟩ := hx
          rw [← hxy]
          exact hpow y (1 / temp) (hnn y hy)
        have hpos2 : 0 < ((assignProbs t temp).map (fun q => powQ q (1 / temp))).sum := by
          obtain ⟨y, hy, hypos⟩ := exists_pos_of_sum_pos_rat _ hpos
          have hmem2 : powQ y (1 / temp)
              ∈ (assignProbs t temp).map (fun q => powQ q (1 / temp)) :=
            List.mem_map_of_mem _ hy
          have h3 := List.single_le_sum hnn2 _ hmem2
          have h4 := hpow2 y (1 / temp) hypos
          linarith
        exact div_self (ne_of_gt hpos2)

theorem chosenIdx_ok (sample : List ℚ → ℕ) (probs : List ℚ) (temp? : Option ℚ)
    (hsum : probs.sum = 1) : ∃ idx, chosenIdx sample probs temp? = Except.ok idx := by
  unfold chosenIdx
  by_cases h : temp? = some 0
  · rw [if_pos h]
    exact ⟨argmaxIdx probs, rfl⟩
  · rw [if_neg h, if_pos hsum]
    exact ⟨sample probs, rfl⟩

/-- **C3 (amended).**  When the state has at least one legal action,
`MCTS.get_best_action` never raises: the probabilities the search
produces always sum to 1 (so the `np.random.choice` draw is well-posed;
`np.power` of a nonnegative/positive base is assumed
nonnegative/positive), and whenever the chosen index decodes to `None`
the first legal action is returned.  The raise is reachable exactly when
there is no legal action. -/
theorem get_best_action_fallback_amended (sq : ℕ → ℚ) (pr : GameState → List ℚ × ℚ)
    (cp : ℚ) (numSims : ℕ) (selfTemp : ℚ) (powQ : ℚ → ℚ → ℚ) (sample : List ℚ → ℕ)
    (s : GameState) (temp? : Option ℚ)
    (hpow : ∀ q e, 0 ≤ q → 0 ≤ powQ q e)
    (hpow2 : ∀ q e, 0 < q → 0 < powQ q e)
    (hacts : getValidActions s ≠ []) :
    (∃ a, get_best_action sq pr cp numSims selfTemp powQ sample s temp? = Except.ok a)
    ∧ ∀ idx, chosenIdx sample (mctsSearch sq pr cp numSims selfTemp powQ s temp?).1 temp?
          = Except.ok idx → decode_action idx = none →
        ∃ a rest, getValidActions s = a :: rest
          ∧ get_best_action sq pr cp numSims selfTemp powQ sample s temp? = Except.ok a := by
  have hsum : ((mctsSearch sq pr cp numSims selfTemp powQ s temp?).1).sum = 1 := by
    show (get_action_probs powQ (searchLoop sq pr cp s numSims (freshRoot s))
      (temp?.getD selfTemp)).sum = 1
    exact get_action_probs_sum powQ hpow hpow2 _ _ s
      (searchLoop_stateOpt sq pr cp s numSims)
      (searchLoop_children_inv sq pr cp s numSims)
  obtain ⟨idx, hidx⟩ := chosenIdx_ok sample _ temp? hsum
  have hred : ∀ i, chosenIdx sample (mctsSearch sq pr cp numSims selfTemp powQ s temp?).1 temp?
        = Except.ok i →
      get_best_action sq pr cp numSims selfTemp powQ sample s temp?
        = (match decode_action i with
          | some a => Except.ok a
          | none =>
            match getValidActions s with
            | a :: _ => Except.ok a
            | [] => Except.error "No valid actions available") := by
    intro i hi
    unfold get_best_action
    dsimp only
    rw [hi]
  constructor
  · rw [hred idx hidx]
    cases hdec : decode_action idx with
    | some a => exact ⟨a, rfl⟩
    | none =>
      cases hl : getValidActions s with
      | nil => exact absurd hl hacts
      | cons a rest => exact ⟨a, rfl⟩
  · intro idx2 hidx2 hdec
    cases hl : getValidActions s with
    | nil => exact absurd hl hacts
    | cons a rest =>
      refine ⟨a, rest, rfl, ?_⟩
      rw [hred idx2 hidx2, hdec, hl]

theorem get_best_action_fallback_amended_witness :
    getValidActions GameState.init ≠ []
    ∧ ∃ a, get_best_action sq0 pr0 (3 / 2) 1 1 pow0 sample72 GameState.init (some 1)
        = Except.ok a :=
  ⟨by decide,
    (get_best_action_fallback_amended sq0 pr0 (3 / 2) 1 1 pow0 sample72 GameState.init
      (some 1) (fun q e h => h) (fun q e h => h) (by decide)).1⟩

theorem simulate_terminal (sq : ℕ → ℚ) (pr : GameState → List ℚ × ℚ) (cp : ℚ)
    (s : GameState) (st : Option GameState) (a : Option Action) (p : ℚ) (vis : ℕ) (vs : ℚ)
    (e : Bool) (c : List Tree) (hterm : isTerminal s = true) :
    simulate sq pr cp s (.node st a p vis vs e c)
      = ((Tree.node st a p vis vs e c).bump s (terminalValue s), terminalValue s) := by
  rw [simulate]
  rw [if_neg (by simp [hterm])]
  rw [if_pos hterm]

/-- **C3 counterexample.**  On a state with no valid actions (the player
to move has an empty pool), the search gives the whole probability mass
to the reserved pass slot 72 (the all-zero mask fallback of
`get_valid_actions_mask`), so `np.random.choice` returns 72, which
decodes to `None`; the fallback then finds no valid action and
`get_best_action` raises `ValueError("No valid actions available")`
instead of returning — the process aborts. -/
theorem get_best_action_raises_cex :
    getValidActions sEmptyPool = []
    ∧ get_best_action sq0 pr0 (3 / 2) 1 1 pow0 sample72 sEmptyPool (some 1)
        = Except.error "No valid actions available" := by
  refine ⟨by decide, ?_⟩
  have hroot : searchLoop sq0 pr0 (3 / 2) sEmptyPool 1 (freshRoot sEmptyPool)
      = Tree.node (some sEmptyPool) none 0 1 0 false [] := by
    have h0 : searchLoop sq0 pr0 (3 / 2) sEmptyPool 1 (freshRoot sEmptyPool)
        = (simulate sq0 pr0 (3 / 2) sEmptyPool (freshRoot sEmptyPool)).1 := rfl
    rw [h0,
      show freshRoot sEmptyPool = Tree.node (some sEmptyPool) none 0 0 0 false [] from rfl,
      simulate_terminal sq0 pr0 (3 / 2) sEmptyPool (some sEmptyPool) none 0 0 0 false []
        (by decide)]
    show Tree.node (some sEmptyPool) none 0 (0 + 1) (0 + terminalValue sEmptyPool) false [] = _
    rw [show terminalValue sEmptyPool = (0 : ℚ) from rfl]
    norm_num
  have hmoves : get_valid_moves sEmptyPool = [] := by decide
  have hmask : get_valid_actions_mask sEmptyPool = zeros108.set 72 1 := by
    unfold get_valid_actions_mask
    rw [hmoves]
    dsimp only [List.foldl_nil]
    rw [if_pos zeros108_sum]
  have h72len : (72 : ℕ) < zeros108.length := by
    unfold zeros108
    rw [List.length_replicate]
    omega
  have hsumset : ((zeros108 : List ℚ).set 72 1).sum = 1 := by
    rw [sum_set_getD_rat zeros108 72 1 h72len, zeros108_sum]
    have hg : (zeros108 : List ℚ).getD 72 0 = 0 := getD_replicate_zero 108 72
    rw [hg]
    norm_num
  have hprobs : get_action_probs pow0 (Tree.node (some sEmptyPool) none 0 1 0 false []) 1
      = ((zeros108 : List ℚ).set 72 1).map
          (fun q => q / ((zeros108 : List ℚ).set 72 1).sum) := by
    unfold get_action_probs
    rw [if_pos (show childVisitSum (Tree.node (some sEmptyPool) none 0 1 0 false []) = 0
      from rfl)]
    dsimp only [Tree.stateOpt]
    rw [hmask]
    rw [if_pos (by rw [hsumset]; norm_num : (0:ℚ) < ((zeros108 : List ℚ).set 72 1).sum)]
  have hsumprobs : (((zeros108 : List ℚ).set 72 1).map
      (fun q => q / ((zeros108 : List ℚ).set 72 1).sum)).sum = 1 := by
    rw [sum_map_div_rat, hsumset]
    norm_num
  have hchosen : chosenIdx sample72
      (get_action_probs pow0 (Tree.node (some sEmptyPool) none 0 1 0 false []) 1) (some 1)
      = Except.ok 72 := by
    unfold chosenIdx
    rw [if_neg (by simp), hprobs, if_pos hsumprobs]
    rfl
  unfold get_best_action mctsSearch
  dsimp only
  rw [hroot]
  rw [show ((some (1:ℚ)).getD 1) = (1:ℚ) from rfl]
  rw [hchosen]
  rfl

end Boop
